import Mathlib

/-!
# Verification of the `EventBus` core (`src/services/EventBus.ts`)

This file shallowly embeds the `EventBus` class in Lean 4 and proves (or
refutes) the frozen specification claims about it.

Two embeddings are used, both translated from the source:

* a **pure-registry model** (`EventBus.Bus`, `EventBus.emit`, ...) in which a
  handler is an opaque reference (a `Nat`, matching JS reference identity)
  whose behaviour during dispatch is a pure function from its argument list to
  `Option JsValue` (`none` = the handler returned normally, `some v` = it
  threw / rejected with the JS value `v`).  This model is the specialization
  of the source to emissions whose handlers do not themselves touch the bus;
  every registry mutation performed by `emit` itself (once-pruning via `off`)
  is modelled exactly as in the source.

* a **heap model** (`EventBus.HBus`, `EventBus.hEmit`, ...) in which JS
  arrays are heap-allocated references, so that the in-place
  `push`/`sort` mutation performed by `on`/`once` and the
  replace-with-a-new-array behaviour of `off` (`Array.prototype.filter`) are
  distinguished, and the `for...of` iteration of `emit` reads the iterated
  array afresh at every step, exactly as JS array iterators do.  Handlers in
  this model may perform bus operations (`on` / `once` / `off`) while the
  dispatch is in flight, which is what claims C2 and C3 are about.
-/

namespace EventBus

/-- A JS value, as far as the bus's error normalization can observe it:
primitives plus `Error` objects (identified by their `message`). -/
inductive JsValue where
  | vstr (s : String)
  | vnum (n : Int)
  | vbool (b : Bool)
  | vnull
  | vundef
  | verror (message : String)
deriving DecidableEq, Repr

/-- JS `String(v)` on the values of `JsValue`.  An `Error` stringifies via
`Error.prototype.toString` as `"Error: " ++ message`. -/
def jsString : JsValue → String
  | .vstr s => s
  | .vnum n => toString n
  | .vbool b => if b then "true" else "false"
  | .vnull => "null"
  | .vundef => "undefined"
  | .verror m => "Error: " ++ m

/-- `v instanceof Error`. -/
def isError : JsValue → Bool
  | .verror _ => true
  | _ => false

/-- The message of an `Error`-shaped value. -/
def errMessage : JsValue → String
  | .verror m => m
  | _ => ""

/-- `err instanceof Error ? err : new Error(String(err))` — the coercion the
source applies to every caught value before recording it. -/
def normalizeThrown (v : JsValue) : JsValue :=
  if isError v then v else .verror (jsString v)

/-- `interface Subscription { handler; priority; once }`.  The handler is an
opaque reference compared by identity, modelled as a `Nat`. -/
structure Subscription where
  handler : Nat
  priority : Int
  once : Bool
deriving DecidableEq, Repr

/-- Insert one element into a list, placing it before the first element of
strictly smaller priority.  Used to build the unique stable
descending-priority sort that `subs.sort((a, b) => b.priority - a.priority)`
(stable per ES2019) produces. -/
def insertSub (x : Subscription) : List Subscription → List Subscription
  | [] => [x]
  | y :: ys => if x.priority > y.priority then x :: y :: ys else y :: insertSub x ys

/-- Stable sort by descending priority: the result of
`arr.sort((a, b) => b.priority - a.priority)` on `arr`. -/
def sortDesc (l : List Subscription) : List Subscription :=
  l.foldl (fun acc x => insertSub x acc) []

/-- `map.get k` on the insertion-ordered association list backing a JS `Map`. -/
def busGet : List (String × List Subscription) → String → Option (List Subscription)
  | [], _ => none
  | (k, v) :: rest, e => if k = e then some v else busGet rest e

/-- `map.set k v`: update in place if the key exists, else append (JS `Map`
preserves insertion order). -/
def busSet : List (String × List Subscription) → String → List Subscription →
    List (String × List Subscription)
  | [], e, l => [(e, l)]
  | (k, v) :: rest, e, l => if k = e then (k, l) :: rest else (k, v) :: busSet rest e l

/-- `map.delete k`. -/
def busDel : List (String × List Subscription) → String → List (String × List Subscription)
  | [], _ => []
  | (k, v) :: rest, e => if k = e then rest else (k, v) :: busDel rest e

/-- The state of one `EventBus` instance in the pure-registry model:
`listeners` is the `Map<string, Subscription[]>`, `wildcardListeners` the
separate wildcard array. -/
structure Bus where
  listeners : List (String × List Subscription)
  wildcardListeners : List Subscription
deriving DecidableEq, Repr

/-- `new EventBus()`. -/
def emptyBus : Bus := ⟨[], []⟩

/-- `EventBus.on(event, handler, priority)`: push the new non-once
subscription and re-sort the target array (stable, descending priority). -/
def «on» (bus : Bus) (event : String) (handler : Nat) (priority : Int) : Bus :=
  if event = "*" then
    ⟨bus.listeners, sortDesc (bus.wildcardListeners ++ [⟨handler, priority, false⟩])⟩
  else
    let subs := (busGet bus.listeners event).getD []
    ⟨busSet bus.listeners event (sortDesc (subs ++ [⟨handler, priority, false⟩])),
     bus.wildcardListeners⟩

/-- `EventBus.once(event, handler, priority)`: identical to `on` except the
subscription carries `once: true`. -/
def once (bus : Bus) (event : String) (handler : Nat) (priority : Int) : Bus :=
  if event = "*" then
    ⟨bus.listeners, sortDesc (bus.wildcardListeners ++ [⟨handler, priority, true⟩])⟩
  else
    let subs := (busGet bus.listeners event).getD []
    ⟨busSet bus.listeners event (sortDesc (subs ++ [⟨handler, priority, true⟩])),
     bus.wildcardListeners⟩

/-- `EventBus.off(event, handler)`: filter out every subscription whose
handler reference equals the argument; delete the key when the filtered
array is empty. -/
def off (bus : Bus) (event : String) (handler : Nat) : Bus :=
  if event = "*" then
    ⟨bus.listeners, bus.wildcardListeners.filter (fun s => decide (s.handler ≠ handler))⟩
  else
    match busGet bus.listeners event with
    | none => bus
    | some subs =>
      let filtered := subs.filter (fun s => decide (s.handler ≠ handler))
      if filtered.isEmpty then ⟨busDel bus.listeners event, bus.wildcardListeners⟩
      else ⟨busSet bus.listeners event filtered, bus.wildcardListeners⟩

/-- `EventBus.listenerCount(event)`. -/
def listenerCount (bus : Bus) (event : String) : Nat :=
  if event = "*" then bus.wildcardListeners.length
  else ((busGet bus.listeners event).getD []).length

/-- `EventBus.removeAllListeners(event?)`.  JS truthiness: an omitted
argument and the empty string both take the clear-everything branch. -/
def removeAllListeners (bus : Bus) (event : Option String) : Bus :=
  match event with
  | some e =>
    if e = "*" then ⟨bus.listeners, []⟩
    else if e ≠ "" then ⟨busDel bus.listeners e, bus.wildcardListeners⟩
    else ⟨[], []⟩
  | none => ⟨[], []⟩

/-- The behaviour of the opaque handlers during one dispatch, in the
pure-registry model: `beh h args = none` means handler `h` invoked with
`args` completes normally, `some v` means it throws (or rejects with) the
JS value `v`. -/
def HandlerBeh := Nat → List JsValue → Option JsValue

/-- One handler invocation performed by the dispatcher, in order. -/
structure Invocation where
  handler : Nat
  args : List JsValue
deriving DecidableEq, Repr

/-- The `AggregateError(errors, message)` thrown by `emit`. -/
structure AggregateErr where
  errors : List JsValue
  message : String
deriving DecidableEq, Repr

/-- The observable outcome of one `emit`: the bus state afterwards, the
ordered list of handler invocations the dispatch performed, and the
aggregate failure (`none` when the promise resolved). -/
structure EmitResult where
  bus : Bus
  trace : List Invocation
  error : Option AggregateErr
deriving DecidableEq, Repr

/-- `EventBus.emit(event, ...args)` in the pure-registry model: the
specific pass over `listeners.get(event) ?? []` (each handler invoked with
the original arguments, throws caught and normalized, once-subscriptions
collected), then once-pruning via `off`, then the wildcard pass with the
event name prepended, then wildcard once-pruning, and finally the
`AggregateError` if any handler failed. -/
def emit (beh : HandlerBeh) (bus : Bus) (event : String) (args : List JsValue) : EmitResult :=
  let subs := (busGet bus.listeners event).getD []
  let errors1 := (subs.filterMap (fun s => beh s.handler args)).map normalizeThrown
  let toRemove := (subs.filter (fun s => s.once)).map (fun s => s.handler)
  let bus1 := toRemove.foldl (fun b h => off b event h) bus
  let wsubs := bus1.wildcardListeners
  let errors2 :=
    (wsubs.filterMap (fun s => beh s.handler (JsValue.vstr event :: args))).map normalizeThrown
  let wToRemove := (wsubs.filter (fun s => s.once)).map (fun s => s.handler)
  let bus2 := wToRemove.foldl (fun b h => off b "*" h) bus1
  let errors := errors1 ++ errors2
  let trace := subs.map (fun s => Invocation.mk s.handler args)
      ++ wsubs.map (fun s => Invocation.mk s.handler (JsValue.vstr event :: args))
  let err :=
    if errors.isEmpty then none
    else some (AggregateErr.mk errors
      (toString errors.length ++ " handler(s) threw during \"" ++ event ++ "\""))
  EmitResult.mk bus2 trace err

/-- Which of the two racing completions of `waitFor` happens first on the
event loop: the awaited event is emitted (with some argument list) before
the timer fires, or the timer fires first. -/
inductive WFRace where
  | eventFirst (args : List JsValue)
  | timerFirst
deriving DecidableEq, Repr

/-- How the promise returned by `waitFor` settled. -/
inductive WFOutcome where
  | resolved (args : List JsValue)
  | rejected (message : String)
deriving DecidableEq, Repr

/-- The observable state of one `waitFor` call: the bus, whether the
`setTimeout` timer is still pending (`clearTimeout` and firing both clear
it), and the promise cell (`none` = still pending).  A JS promise settles
at most once. -/
structure WFResult where
  bus : Bus
  timerActive : Bool
  settled : Option WFOutcome
deriving DecidableEq, Repr

/-- `resolve` / `reject`: settle the promise unless it is already settled. -/
def wfSettle (st : WFResult) (r : WFOutcome) : WFResult :=
  match st.settled with
  | some _ => st
  | none => ⟨st.bus, st.timerActive, some r⟩

/-- The body of the handler `waitFor` registers:
`(...args) => { clearTimeout(timer); resolve(args); }`. -/
def wfHandlerBody (a : List JsValue) (st : WFResult) : WFResult :=
  wfSettle ⟨st.bus, false, st.settled⟩ (WFOutcome.resolved a)

/-- The `setTimeout` callback of `waitFor`:
`() => { this.off(event, handler); reject(new Error(...)); }`.  It runs only
if the timer is still pending (a cleared timer never fires). -/
def wfTimerBody (event : String) (timeout : Nat) (h : Nat) (st : WFResult) : WFResult :=
  if st.timerActive then
    wfSettle ⟨off st.bus event h, false, st.settled⟩
      (WFOutcome.rejected ("waitFor(\"" ++ event ++ "\") timed out after " ++ toString timeout ++ "ms"))
  else st

/-- `EventBus.waitFor(event, timeout)` run to quiescence under the race
outcome `race`, on the single-threaded event loop.  `h` is the fresh
reference of the closure `waitFor` allocates for its handler, `beh` the
behaviour of the other handlers during the emission that fires the event.
`waitFor` registers the handler via `this.once(event, handler)`; then either
the event is emitted first (the dispatch invokes `h`, whose body clears the
timer and resolves; the once-pruning of that same dispatch unregisters `h`;
the timer object later reaches its deadline but has been cleared), or the
timer fires first (its callback unregisters `h` and rejects). -/
def runWaitFor (beh : HandlerBeh) (bus : Bus) (event : String) (timeout : Nat) (h : Nat)
    (race : WFRace) : WFResult :=
  let bus0 := once bus event h 0
  match race with
  | .eventFirst args =>
      let r := emit beh bus0 event args
      let st1 := wfHandlerBody args ⟨r.bus, true, none⟩
      wfTimerBody event timeout h st1
  | .timerFirst =>
      wfTimerBody event timeout h ⟨bus0, true, none⟩

/-! ## The heap model

JS arrays are mutable objects: `this.listeners.get(event)` yields a
*reference* to the stored array, `push`/`sort` mutate it in place, while
`filter` allocates a fresh array.  `for (const sub of subs)` iterates the
array object captured when the loop starts, reading `subs[i]` and comparing
`i` against `subs.length` afresh at every step, so in-place mutation during
the loop is observed while replacing the stored reference is not.  The heap
model makes this explicit: `heap` is the store of array objects, addressed
by allocation index, and the registry maps event names to addresses. -/

/-- Read the array object at address `addr` (out-of-range reads, which never
occur on reachable states, yield the empty array). -/
def heapGet (heap : List (List Subscription)) (addr : Nat) : List Subscription :=
  heap.getD addr []

/-- `map.get k` for the address-valued registry. -/
def busGetN : List (String × Nat) → String → Option Nat
  | [], _ => none
  | (k, v) :: rest, e => if k = e then some v else busGetN rest e

/-- `map.set k v` for the address-valued registry. -/
def busSetN : List (String × Nat) → String → Nat → List (String × Nat)
  | [], e, a => [(e, a)]
  | (k, v) :: rest, e, a => if k = e then (k, a) :: rest else (k, v) :: busSetN rest e a

/-- `map.delete k` for the address-valued registry. -/
def busDelN : List (String × Nat) → String → List (String × Nat)
  | [], _ => []
  | (k, v) :: rest, e => if k = e then rest else (k, v) :: busDelN rest e

/-- The state of one `EventBus` instance in the heap model. -/
structure HBus where
  heap : List (List Subscription)
  listeners : List (String × Nat)
  wildcard : Nat
deriving DecidableEq, Repr

/-- `new EventBus()`: the wildcard array is allocated empty at address 0. -/
def emptyHBus : HBus := ⟨[[]], [], 0⟩

/-- `on` in the heap model: `push` + in-place `sort` on the stored array
object; when the event key is absent a fresh empty array is allocated and
stored first. -/
def hOn (b : HBus) (event : String) (h : Nat) (p : Int) : HBus :=
  if event = "*" then
    ⟨b.heap.set b.wildcard (sortDesc (heapGet b.heap b.wildcard ++ [⟨h, p, false⟩])),
     b.listeners, b.wildcard⟩
  else
    match busGetN b.listeners event with
    | some addr =>
        ⟨b.heap.set addr (sortDesc (heapGet b.heap addr ++ [⟨h, p, false⟩])),
         b.listeners, b.wildcard⟩
    | none =>
        ⟨b.heap ++ [sortDesc [⟨h, p, false⟩]], b.listeners ++ [(event, b.heap.length)],
         b.wildcard⟩

/-- `once` in the heap model: as `hOn` with `once: true`. -/
def hOnce (b : HBus) (event : String) (h : Nat) (p : Int) : HBus :=
  if event = "*" then
    ⟨b.heap.set b.wildcard (sortDesc (heapGet b.heap b.wildcard ++ [⟨h, p, true⟩])),
     b.listeners, b.wildcard⟩
  else
    match busGetN b.listeners event with
    | some addr =>
        ⟨b.heap.set addr (sortDesc (heapGet b.heap addr ++ [⟨h, p, true⟩])),
         b.listeners, b.wildcard⟩
    | none =>
        ⟨b.heap ++ [sortDesc [⟨h, p, true⟩]], b.listeners ++ [(event, b.heap.length)],
         b.wildcard⟩

/-- `off` in the heap model: `filter` allocates a *new* array, which is then
stored (or the key deleted); the previous array object is never mutated. -/
def hOff (b : HBus) (event : String) (h : Nat) : HBus :=
  if event = "*" then
    ⟨b.heap ++ [(heapGet b.heap b.wildcard).filter (fun s => decide (s.handler ≠ h))],
     b.listeners, b.heap.length⟩
  else
    match busGetN b.listeners event with
    | none => b
    | some addr =>
      let filtered := (heapGet b.heap addr).filter (fun s => decide (s.handler ≠ h))
      if filtered.isEmpty then ⟨b.heap, busDelN b.listeners event, b.wildcard⟩
      else ⟨b.heap ++ [filtered], busSetN b.listeners event b.heap.length, b.wildcard⟩

/-- A registry operation a handler may perform on the bus while a dispatch
is in flight. -/
inductive HAction where
  | actOn (event : String) (h : Nat) (p : Int)
  | actOnce (event : String) (h : Nat) (p : Int)
  | actOff (event : String) (h : Nat)
deriving DecidableEq, Repr

/-- Apply one in-flight registry operation. -/
def applyAction (b : HBus) : HAction → HBus
  | .actOn e h p => hOn b e h p
  | .actOnce e h p => hOnce b e h p
  | .actOff e h => hOff b e h

/-- Handler behaviour in the heap model: the registry operations the handler
performs when invoked with the given arguments, and the value it throws, if
any. -/
def HBeh := Nat → List JsValue → List HAction × Option JsValue

/-- The outcome of one dispatch pass: bus afterwards, invocations in order,
normalized errors in order, and the handlers of the `once` subscriptions
encountered (the `toRemove` array of the source). -/
structure HPassResult where
  bus : HBus
  trace : List Invocation
  errors : List JsValue
  toRemove : List Nat
deriving Repr

/-- One `for (const sub of subs)` dispatch loop over the array object at
`addr`, starting at index `i`: at every step the array's current contents
are re-read (JS array iteration semantics), the handler at index `i` is
invoked (its registry operations applied to the bus, its throw caught and
normalized), and `once` subscriptions are recorded for later pruning.
`fuel` bounds the number of iterations so the function is total; every
theorem below supplies enough fuel for its loop to run to completion. -/
def hPassLoop (beh : HBeh) (addr : Nat) (args : List JsValue) :
    Nat → Nat → HBus → HPassResult
  | 0, _, b => HPassResult.mk b [] [] []
  | fuel + 1, i, b =>
      let arr := heapGet b.heap addr
      if i < arr.length then
        let sub := arr.getD i ⟨0, 0, false⟩
        let step := beh sub.handler args
        let b1 := step.1.foldl applyAction b
        let rest := hPassLoop beh addr args fuel (i + 1) b1
        HPassResult.mk rest.bus
          (Invocation.mk sub.handler args :: rest.trace)
          ((match step.2 with
            | some v => [normalizeThrown v]
            | none => []) ++ rest.errors)
          ((if sub.once then [sub.handler] else []) ++ rest.toRemove)
      else HPassResult.mk b [] [] []

/-- The outcome of one `emit` in the heap model. -/
structure HEmitResult where
  bus : HBus
  trace : List Invocation
  error : Option AggregateErr
deriving Repr

/-- `EventBus.emit(event, ...args)` in the heap model: the specific pass
iterates the array object `this.listeners.get(event)` refers to when the
emission starts (or a fresh empty array when the key is absent, via
`?? []`); once-pruning then runs `off` per collected handler; the wildcard
pass iterates the array object `this.wildcardListeners` refers to at that
moment, with the event name prepended to the arguments; wildcard
once-pruning follows; finally the `AggregateError` is raised if any handler
threw. -/
def hEmit (beh : HBeh) (fuel : Nat) (b : HBus) (event : String) (args : List JsValue) :
    HEmitResult :=
  let specPass :=
    match busGetN b.listeners event with
    | some addr => hPassLoop beh addr args fuel 0 b
    | none => HPassResult.mk b [] [] []
  let bus1 := specPass.toRemove.foldl (fun bb h => hOff bb event h) specPass.bus
  let wPass := hPassLoop beh bus1.wildcard (JsValue.vstr event :: args) fuel 0 bus1
  let bus2 := wPass.toRemove.foldl (fun bb h => hOff bb "*" h) wPass.bus
  let errors := specPass.errors ++ wPass.errors
  let err :=
    if errors.isEmpty then none
    else some (AggregateErr.mk errors
      (toString errors.length ++ " handler(s) threw during \"" ++ event ++ "\""))
  HEmitResult.mk bus2 (specPass.trace ++ wPass.trace) err

/-! ## Invariant and freeness predicates -/

/-- A subscriber sequence sorted by descending priority. -/
def SortedDesc (l : List Subscription) : Prop :=
  l.Pairwise (fun a b => b.priority ≤ a.priority)

/-- Every stored subscriber sequence — each per-event sequence and the
wildcard sequence — is sorted by descending priority. -/
def BusSorted (bus : Bus) : Prop :=
  (∀ kv ∈ bus.listeners, SortedDesc kv.2) ∧ SortedDesc bus.wildcardListeners

/-- `'*'` is absent from the specific-event mapping; every reachable bus
state satisfies this. -/
def NoStar (bus : Bus) : Prop := busGet bus.listeners "*" = none

/-- Well-formed heap-model state: the wildcard address and every address in
the registry point into the heap, and registry keys are unique (a JS `Map`
cannot hold duplicate keys). -/
def HWF (b : HBus) : Prop :=
  b.wildcard < b.heap.length ∧ (∀ kv ∈ b.listeners, kv.2 < b.heap.length)
    ∧ (b.listeners.map Prod.fst).Nodup

/-- The subscriber sequence currently stored for event `e` (empty when the
key is absent). -/
def hListAt (b : HBus) (e : String) : List Subscription :=
  match busGetN b.listeners e with
  | some addr => heapGet b.heap addr
  | none => []

/-- No stored subscription for event `e` has handler reference `h`. -/
def hFreeOn (b : HBus) (e : String) (h : Nat) : Prop :=
  ∀ s ∈ hListAt b e, s.handler ≠ h

/-- No wildcard subscription has handler reference `h`. -/
def hFreeWild (b : HBus) (h : Nat) : Prop :=
  ∀ s ∈ heapGet b.heap b.wildcard, s.handler ≠ h

/-- Handlers that only unsubscribe during the dispatch: every registry
operation any handler performs while an emission is in flight is an `off`. -/
def OffOnly (beh : HBeh) : Prop :=
  ∀ h a, ∀ act ∈ (beh h a).1, ∃ e hh, act = HAction.actOff e hh

/-- Handlers that only unsubscribe from specific (non-wildcard) events. -/
def OffOnlyNW (beh : HBeh) : Prop :=
  ∀ h a, ∀ act ∈ (beh h a).1, ∃ e hh, act = HAction.actOff e hh ∧ e ≠ "*"

/-- Pure-model freeness: no subscription stored for event `e` has handler
reference `h`. -/
def freeOn (bus : Bus) (e : String) (h : Nat) : Prop :=
  ∀ s ∈ (busGet bus.listeners e).getD [], s.handler ≠ h

/-- Pure-model freeness for the wildcard list. -/
def freeWild (bus : Bus) (h : Nat) : Prop :=
  ∀ s ∈ bus.wildcardListeners, s.handler ≠ h

/-- Concrete behaviour: every handler completes normally. -/
def quietBeh : HandlerBeh := fun _ _ => none

/-- Concrete behaviour: every handler throws the string `"boom"`. -/
def throwStrBeh : HandlerBeh := fun _ _ => some (JsValue.vstr "boom")

/-- A bus with the single handler 0 subscribed to `"e"` via `on`. -/
def busE0 : Bus := «on» emptyBus "e" 0 0

/-- A bus with handler 0 subscribed to `"e"` both via `on` and via `once`
(same handler reference registered twice). -/
def busOnOnce : Bus := once («on» emptyBus "e" 0 0) "e" 0 0

/-- Heap-model behaviour where handler `h0`, when invoked, registers handler
`h1` on event `e` at priority `p` via `on`; every other handler does
nothing. -/
def registerBeh (e : String) (h0 h1 : Nat) (p : Int) : HBeh :=
  fun n _ => if n = h0 then ([HAction.actOn e h1 p], none) else ([], none)

/-- Heap-model behaviour where handler 0, when invoked, unsubscribes handler
1 from event `"e"`; every other handler does nothing. -/
def offDuringEmitBeh : HBeh :=
  fun n _ => if n = 0 then ([HAction.actOff "e" 1], none) else ([], none)

/-- A heap-model bus with the single handler 0 subscribed to `"e"`. -/
def hBusE0 : HBus := hOn emptyHBus "e" 0 0

/-- A heap-model bus with handlers 0 and 1 subscribed to `"e"`. -/
def hBusE01 : HBus := hOn (hOn emptyHBus "e" 0 0) "e" 1 0

/-! ## Association-list lemmas -/

theorem busGet_busSet_self (l : List (String × List Subscription)) (e : String)
    (v : List Subscription) : busGet (busSet l e v) e = some v := by
  induction l with
  | nil => simp [busGet, busSet]
  | cons kv rest ih =>
      obtain ⟨k, w⟩ := kv
      by_cases hk : k = e
      · simp [busGet, busSet, hk]
      · simp [busGet, busSet, hk, ih]

theorem busGet_busSet_ne (l : List (String × List Subscription)) (e k : String)
    (v : List Subscription) (hk : k ≠ e) : busGet (busSet l e v) k = busGet l k := by
  induction l with
  | nil => simp [busGet, busSet, Ne.symm hk]
  | cons kv rest ih =>
      obtain ⟨k1, w⟩ := kv
      by_cases hk1 : k1 = e
      · subst hk1
        simp [busGet, busSet, Ne.symm hk]
      · simp only [busSet, if_neg hk1]
        by_cases hkk : k1 = k
        · simp [busGet, hkk]
        · simp [busGet, hkk, ih]

theorem busGet_busDel_ne (l : List (String × List Subscription)) (e k : String)
    (hk : k ≠ e) : busGet (busDel l e) k = busGet l k := by
  induction l with
  | nil => simp [busDel]
  | cons kv rest ih =>
      obtain ⟨k1, w⟩ := kv
      by_cases hk1 : k1 = e
      · subst hk1
        simp [busGet, busDel, Ne.symm hk]
      · simp only [busDel, if_neg hk1]
        by_cases hkk : k1 = k
        · simp [busGet, hkk]
        · simp [busGet, hkk, ih]

theorem busGet_none_busDel (l : List (String × List Subscription)) (e k : String)
    (h : busGet l k = none) : busGet (busDel l e) k = none := by
  induction l with
  | nil => simp [busDel, busGet]
  | cons kv rest ih =>
      obtain ⟨k1, w⟩ := kv
      by_cases hk1 : k1 = k
      · simp [busGet, hk1] at h
      · by_cases he : k1 = e
        · simp only [busGet, if_neg hk1] at h
          simp [busDel, he, h]
        · simp only [busGet, if_neg hk1] at h
          simp [busDel, he, busGet, hk1, ih h]

theorem busGet_eq_none_of_key_not_mem (l : List (String × List Subscription)) (e : String)
    (h : e ∉ l.map Prod.fst) : busGet l e = none := by
  induction l with
  | nil => simp [busGet]
  | cons kv rest ih =>
      obtain ⟨k, w⟩ := kv
      simp only [List.map_cons, List.mem_cons] at h
      push_neg at h
      have hke : ¬ k = e := fun hk => h.1 hk.symm
      simp [busGet, hke, ih h.2]

theorem busGet_busDel_self (l : List (String × List Subscription)) (e : String)
    (hnd : (l.map Prod.fst).Nodup) : busGet (busDel l e) e = none := by
  induction l with
  | nil => simp [busDel, busGet]
  | cons kv rest ih =>
      obtain ⟨k, w⟩ := kv
      simp only [List.map_cons, List.nodup_cons] at hnd
      by_cases hk : k = e
      · subst hk
        simp only [busDel, if_pos rfl]
        exact busGet_eq_none_of_key_not_mem rest k hnd.1
      · simp [busDel, hk, busGet, hk, ih hnd.2]

/-! ## Stable-sort lemmas -/

theorem insertSub_perm (x : Subscription) (l : List Subscription) :
    (insertSub x l).Perm (x :: l) := by
  induction l with
  | nil => exact List.Perm.refl _
  | cons y ys ih =>
      by_cases hp : x.priority > y.priority
      · rw [insertSub, if_pos hp]
      · rw [insertSub, if_neg hp]
        exact (ih.cons y).trans (List.Perm.swap x y ys)

theorem sortDesc_loop_perm (l acc : List Subscription) :
    (l.foldl (fun a x => insertSub x a) acc).Perm (acc ++ l) := by
  induction l generalizing acc with
  | nil => simp
  | cons y ys ih =>
      simp only [List.foldl_cons]
      have h1 : ((insertSub y acc) ++ ys).Perm ((y :: acc) ++ ys) :=
        (insertSub_perm y acc).append_right ys
      have h3 : (acc ++ y :: ys).Perm (y :: (acc ++ ys)) := List.perm_middle
      exact (ih (insertSub y acc)).trans (h1.trans h3.symm)

theorem sortDesc_perm (l : List Subscription) : (sortDesc l).Perm l := by
  simpa [sortDesc] using sortDesc_loop_perm l []

theorem insertSub_sorted (x : Subscription) (l : List Subscription)
    (hl : SortedDesc l) : SortedDesc (insertSub x l) := by
  induction l with
  | nil =>
      rw [insertSub]
      exact List.pairwise_singleton _ x
  | cons y ys ih =>
      rw [SortedDesc, List.pairwise_cons] at hl
      by_cases hp : x.priority > y.priority
      · rw [insertSub, if_pos hp]
        refine List.Pairwise.cons ?_ (List.Pairwise.cons hl.1 hl.2)
        intro b hb
        rcases List.mem_cons.mp hb with hb | hb
        · exact le_of_lt (hb ▸ hp)
        · exact le_trans (hl.1 b hb) (le_of_lt hp)
      · rw [insertSub, if_neg hp]
        refine List.Pairwise.cons ?_ (ih hl.2)
        intro b hb
        rcases List.mem_cons.mp ((insertSub_perm x ys).mem_iff.mp hb) with hb | hb
        · exact hb ▸ le_of_not_lt hp
        · exact hl.1 b hb

theorem sortDesc_sorted (l : List Subscription) : SortedDesc (sortDesc l) := by
  have h : ∀ acc, SortedDesc acc → SortedDesc (l.foldl (fun a x => insertSub x a) acc) := by
    induction l with
    | nil => intro acc ha; simpa using ha
    | cons y ys ih =>
        intro acc ha
        simpa using ih (insertSub y acc) (insertSub_sorted y acc ha)
  simpa [sortDesc] using h [] (List.Pairwise.nil)

theorem insertSub_eq_takeWhile_dropWhile (x : Subscription) (l : List Subscription) :
    insertSub x l
      = l.takeWhile (fun y => decide (x.priority ≤ y.priority))
        ++ x :: l.dropWhile (fun y => decide (x.priority ≤ y.priority)) := by
  induction l with
  | nil => simp [insertSub]
  | cons y ys ih =>
      by_cases hp : x.priority > y.priority
      · have hle : ¬ x.priority ≤ y.priority := not_le_of_lt hp
        simp [insertSub, hp, List.takeWhile_cons, List.dropWhile_cons, hle]
      · have hle : x.priority ≤ y.priority := le_of_not_lt hp
        simp [insertSub, hp, List.takeWhile_cons, List.dropWhile_cons, hle, ih]

theorem sortDesc_append_single (l : List Subscription) (x : Subscription) :
    sortDesc (l ++ [x]) = insertSub x (sortDesc l) := by
  simp [sortDesc]

theorem sortDesc_eq_self (l : List Subscription) (hl : SortedDesc l) : sortDesc l = l := by
  induction l using List.reverseRecOn with
  | nil => rfl
  | append_singleton k x ih =>
      rw [SortedDesc, List.pairwise_append] at hl
      have hk : SortedDesc k := hl.1
      have hx : ∀ y ∈ k, x.priority ≤ y.priority := by
        intro y hy
        exact hl.2.2 y hy x (by simp)
      rw [sortDesc_append_single, ih hk, insertSub_eq_takeWhile_dropWhile]
      rw [List.takeWhile_eq_self_iff.mpr (by intro y hy; simpa using hx y hy)]
      rw [List.dropWhile_eq_nil_iff.mpr (by intro y hy; simpa using hx y hy)]

/-- The stable-registration equation: pushing a new subscription onto a
sorted sequence and re-sorting places it exactly after every existing
subscription of greater-or-equal priority and before every one of strictly
smaller priority, preserving the relative order of everything else. -/
theorem sortDesc_register (l : List Subscription) (x : Subscription) (hl : SortedDesc l) :
    sortDesc (l ++ [x])
      = l.takeWhile (fun y => decide (x.priority ≤ y.priority))
        ++ x :: l.dropWhile (fun y => decide (x.priority ≤ y.priority)) := by
  rw [sortDesc_append_single, sortDesc_eq_self l hl, insertSub_eq_takeWhile_dropWhile]

/-! ## Registry invariants in the pure model -/

theorem mem_busSet (l : List (String × List Subscription)) (e : String)
    (v : List Subscription) (kv : String × List Subscription)
    (h : kv ∈ busSet l e v) : kv.2 = v ∨ kv ∈ l := by
  induction l with
  | nil =>
      simp only [busSet, List.mem_singleton] at h
      exact Or.inl (by rw [h])
  | cons kw rest ih =>
      obtain ⟨k, w⟩ := kw
      by_cases hk : k = e
      · simp only [busSet, if_pos hk, List.mem_cons] at h
        rcases h with h | h
        · exact Or.inl (by rw [h])
        · exact Or.inr (List.mem_cons.mpr (Or.inr h))
      · simp only [busSet, if_neg hk, List.mem_cons] at h
        rcases h with h | h
        · exact Or.inr (List.mem_cons.mpr (Or.inl h))
        · rcases ih h with h' | h'
          · exact Or.inl h'
          · exact Or.inr (List.mem_cons.mpr (Or.inr h'))

theorem mem_busDel (l : List (String × List Subscription)) (e : String)
    (kv : String × List Subscription) (h : kv ∈ busDel l e) : kv ∈ l := by
  induction l with
  | nil => simp [busDel] at h
  | cons kw rest ih =>
      obtain ⟨k, w⟩ := kw
      by_cases hk : k = e
      · simp only [busDel, if_pos hk] at h
        exact List.mem_cons.mpr (Or.inr h)
      · simp only [busDel, if_neg hk, List.mem_cons] at h
        rcases h with h | h
        · exact List.mem_cons.mpr (Or.inl h)
        · exact List.mem_cons.mpr (Or.inr (ih h))

theorem sortedDesc_busGet (l : List (String × List Subscription)) (e : String)
    (h : ∀ kv ∈ l, SortedDesc kv.2) : SortedDesc ((busGet l e).getD []) := by
  induction l with
  | nil => exact List.Pairwise.nil
  | cons kw rest ih =>
      obtain ⟨k, w⟩ := kw
      by_cases hk : k = e
      · simpa [busGet, hk] using h (k, w) (by simp)
      · simp only [busGet, if_neg hk]
        exact ih (fun kv hkv => h kv (List.mem_cons.mpr (Or.inr hkv)))

theorem busSorted_on (bus : Bus) (e : String) (h : Nat) (p : Int)
    (hb : BusSorted bus) : BusSorted («on» bus e h p) := by
  rw [«on»]
  by_cases he : e = "*"
  · rw [if_pos he]
    exact ⟨hb.1, sortDesc_sorted _⟩
  · rw [if_neg he]
    refine ⟨?_, hb.2⟩
    intro kv hkv
    rcases mem_busSet _ _ _ kv hkv with h' | h'
    · rw [h']
      exact sortDesc_sorted _
    · exact hb.1 kv h'

theorem busSorted_once (bus : Bus) (e : String) (h : Nat) (p : Int)
    (hb : BusSorted bus) : BusSorted (once bus e h p) := by
  rw [once]
  by_cases he : e = "*"
  · rw [if_pos he]
    exact ⟨hb.1, sortDesc_sorted _⟩
  · rw [if_neg he]
    refine ⟨?_, hb.2⟩
    intro kv hkv
    rcases mem_busSet _ _ _ kv hkv with h' | h'
    · rw [h']
      exact sortDesc_sorted _
    · exact hb.1 kv h'

theorem busSorted_off (bus : Bus) (e : String) (h : Nat)
    (hb : BusSorted bus) : BusSorted (off bus e h) := by
  rw [off]
  by_cases he : e = "*"
  · rw [if_pos he]
    exact ⟨hb.1, List.Pairwise.filter _ hb.2⟩
  · rw [if_neg he]
    cases hget : busGet bus.listeners e with
    | none => exact hb
    | some subs =>
        simp only
        have hsubs : SortedDesc subs := by
          have := sortedDesc_busGet bus.listeners e hb.1
          rwa [hget] at this
        by_cases hemp : (subs.filter (fun s => decide (s.handler ≠ h))).isEmpty
        · rw [if_pos hemp]
          exact ⟨fun kv hkv => hb.1 kv (mem_busDel _ _ kv hkv), hb.2⟩
        · rw [if_neg hemp]
          refine ⟨?_, hb.2⟩
          intro kv hkv
          rcases mem_busSet _ _ _ kv hkv with h' | h'
          · rw [h']
            exact List.Pairwise.filter _ hsubs
          · exact hb.1 kv h'

theorem busSorted_foldl_off (e : String) (hs : List Nat) (bus : Bus)
    (hb : BusSorted bus) : BusSorted (hs.foldl (fun b h => off b e h) bus) := by
  induction hs generalizing bus with
  | nil => exact hb
  | cons h rest ih => exact ih (off bus e h) (busSorted_off bus e h hb)

theorem busSorted_emit (beh : HandlerBeh) (bus : Bus) (e : String) (args : List JsValue)
    (hb : BusSorted bus) : BusSorted (emit beh bus e args).bus := by
  rw [emit]
  exact busSorted_foldl_off _ _ _ (busSorted_foldl_off _ _ _ hb)

theorem busSorted_removeAllListeners (bus : Bus) (o : Option String)
    (hb : BusSorted bus) : BusSorted (removeAllListeners bus o) := by
  rw [removeAllListeners.eq_def]
  cases o with
  | none => exact ⟨by simp, List.Pairwise.nil⟩
  | some e =>
      by_cases he : e = "*"
      · simpa [he] using ⟨hb.1, List.Pairwise.nil⟩
      · by_cases hne : e ≠ ""
        · simp only [if_neg he, if_pos hne]
          exact ⟨fun kv hkv => hb.1 kv (mem_busDel _ _ kv hkv), hb.2⟩
        · simp only [if_neg he, if_neg hne]
          exact ⟨by simp, List.Pairwise.nil⟩

theorem busSorted_runWaitFor (beh : HandlerBeh) (bus : Bus) (e : String) (timeout : Nat)
    (h : Nat) (race : WFRace) (hb : BusSorted bus) :
    BusSorted (runWaitFor beh bus e timeout h race).bus := by
  rw [runWaitFor.eq_def]
  cases race with
  | eventFirst args =>
      simp only [wfTimerBody]
      have h1 : BusSorted (emit beh (once bus e h 0) e args).bus :=
        busSorted_emit beh (once bus e h 0) e args (busSorted_once bus e h 0 hb)
      simp only [wfHandlerBody, wfSettle]
      exact h1
  | timerFirst =>
      simp only [wfTimerBody]
      simp only [wfSettle]
      exact busSorted_off _ _ _ (busSorted_once bus e h 0 hb)

/-! ## The reserved wildcard name never enters the specific mapping -/

theorem noStar_emptyBus : NoStar emptyBus := rfl

theorem noStar_on (bus : Bus) (e : String) (h : Nat) (p : Int)
    (hb : NoStar bus) : NoStar («on» bus e h p) := by
  rw [«on»]
  by_cases he : e = "*"
  · rw [if_pos he]
    exact hb
  · rw [if_neg he]
    unfold NoStar
    simpa [busGet_busSet_ne _ _ _ _ (fun hc => he hc.symm)] using hb

theorem noStar_once (bus : Bus) (e : String) (h : Nat) (p : Int)
    (hb : NoStar bus) : NoStar (once bus e h p) := by
  rw [once]
  by_cases he : e = "*"
  · rw [if_pos he]
    exact hb
  · rw [if_neg he]
    unfold NoStar
    simpa [busGet_busSet_ne _ _ _ _ (fun hc => he hc.symm)] using hb

theorem noStar_off (bus : Bus) (e : String) (h : Nat)
    (hb : NoStar bus) : NoStar (off bus e h) := by
  rw [off]
  by_cases he : e = "*"
  · rw [if_pos he]
    exact hb
  · rw [if_neg he]
    cases hget : busGet bus.listeners e with
    | none => exact hb
    | some subs =>
        simp only
        by_cases hemp : (subs.filter (fun s => decide (s.handler ≠ h))).isEmpty
        · rw [if_pos hemp]
          exact busGet_none_busDel _ _ _ hb
        · rw [if_neg hemp]
          unfold NoStar
          simpa [busGet_busSet_ne _ _ _ _ (fun hc => he hc.symm)] using hb

theorem noStar_foldl_off (e : String) (hs : List Nat) (bus : Bus)
    (hb : NoStar bus) : NoStar (hs.foldl (fun b h => off b e h) bus) := by
  induction hs generalizing bus with
  | nil => exact hb
  | cons h rest ih => exact ih (off bus e h) (noStar_off bus e h hb)

theorem noStar_emit (beh : HandlerBeh) (bus : Bus) (e : String) (args : List JsValue)
    (hb : NoStar bus) : NoStar (emit beh bus e args).bus := by
  rw [emit]
  exact noStar_foldl_off _ _ _ (noStar_foldl_off _ _ _ hb)

theorem noStar_removeAllListeners (bus : Bus) (o : Option String)
    (hb : NoStar bus) : NoStar (removeAllListeners bus o) := by
  rw [removeAllListeners.eq_def]
  cases o with
  | none => rfl
  | some e =>
      by_cases he : e = "*"
      · simpa [he] using hb
      · by_cases hne : e ≠ ""
        · simp only [if_neg he, if_pos hne]
          exact busGet_none_busDel _ _ _ hb
        · simp only [if_neg he, if_neg hne]
          rfl

/-- `off` on a specific event never touches the wildcard array. -/
theorem off_wildcard_eq (bus : Bus) (e : String) (h : Nat) (he : e ≠ "*") :
    (off bus e h).wildcardListeners = bus.wildcardListeners := by
  rw [off, if_neg he]
  cases busGet bus.listeners e with
  | none => rfl
  | some subs =>
      simp only
      by_cases hemp : (subs.filter (fun s => decide (s.handler ≠ h))).isEmpty
      · rw [if_pos hemp]
      · rw [if_neg hemp]

theorem foldl_off_wildcard_eq (e : String) (hs : List Nat) (bus : Bus) (he : e ≠ "*") :
    (hs.foldl (fun b h => off b e h) bus).wildcardListeners = bus.wildcardListeners := by
  induction hs generalizing bus with
  | nil => rfl
  | cons h rest ih => rw [List.foldl_cons, ih (off bus e h), off_wildcard_eq bus e h he]

/-! ## Heap-model lemmas -/

theorem busGetN_busSetN_self (l : List (String × Nat)) (e : String) (a : Nat) :
    busGetN (busSetN l e a) e = some a := by
  induction l with
  | nil => simp [busGetN, busSetN]
  | cons kv rest ih =>
      obtain ⟨k, w⟩ := kv
      by_cases hk : k = e
      · simp [busGetN, busSetN, hk]
      · simp [busGetN, busSetN, hk, ih]

theorem busGetN_busSetN_ne (l : List (String × Nat)) (e k : String) (a : Nat)
    (hk : k ≠ e) : busGetN (busSetN l e a) k = busGetN l k := by
  induction l with
  | nil => simp [busGetN, busSetN, Ne.symm hk]
  | cons kv rest ih =>
      obtain ⟨k1, w⟩ := kv
      by_cases hk1 : k1 = e
      · subst hk1
        simp [busGetN, busSetN, Ne.symm hk]
      · simp only [busSetN, if_neg hk1]
        by_cases hkk : k1 = k
        · simp [busGetN, hkk]
        · simp [busGetN, hkk, ih]

theorem busGetN_busDelN_ne (l : List (String × Nat)) (e k : String)
    (hk : k ≠ e) : busGetN (busDelN l e) k = busGetN l k := by
  induction l with
  | nil => simp [busDelN]
  | cons kv rest ih =>
      obtain ⟨k1, w⟩ := kv
      by_cases hk1 : k1 = e
      · subst hk1
        simp [busGetN, busDelN, Ne.symm hk]
      · simp only [busDelN, if_neg hk1]
        by_cases hkk : k1 = k
        · simp [busGetN, hkk]
        · simp [busGetN, hkk, ih]

theorem busGetN_eq_none_of_key_not_mem (l : List (String × Nat)) (e : String)
    (h : e ∉ l.map Prod.fst) : busGetN l e = none := by
  induction l with
  | nil => simp [busGetN]
  | cons kv rest ih =>
      obtain ⟨k, w⟩ := kv
      simp only [List.map_cons, List.mem_cons] at h
      push_neg at h
      have hke : ¬ k = e := fun hk => h.1 hk.symm
      simp [busGetN, hke, ih h.2]

theorem busGetN_busDelN_self (l : List (String × Nat)) (e : String)
    (hnd : (l.map Prod.fst).Nodup) : busGetN (busDelN l e) e = none := by
  induction l with
  | nil => simp [busDelN, busGetN]
  | cons kv rest ih =>
      obtain ⟨k, w⟩ := kv
      simp only [List.map_cons, List.nodup_cons] at hnd
      by_cases hk : k = e
      · subst hk
        simp only [busDelN, if_pos rfl]
        exact busGetN_eq_none_of_key_not_mem rest k hnd.1
      · simp [busDelN, hk, busGetN, hk, ih hnd.2]

theorem mem_busSetN (l : List (String × Nat)) (e : String) (a : Nat)
    (kv : String × Nat) (h : kv ∈ busSetN l e a) : kv.2 = a ∨ kv ∈ l := by
  induction l with
  | nil =>
      simp only [busSetN, List.mem_singleton] at h
      exact Or.inl (by rw [h])
  | cons kw rest ih =>
      obtain ⟨k, w⟩ := kw
      by_cases hk : k = e
      · simp only [busSetN, if_pos hk, List.mem_cons] at h
        rcases h with h | h
        · exact Or.inl (by rw [h])
        · exact Or.inr (List.mem_cons.mpr (Or.inr h))
      · simp only [busSetN, if_neg hk, List.mem_cons] at h
        rcases h with h | h
        · exact Or.inr (List.mem_cons.mpr (Or.inl h))
        · rcases ih h with h' | h'
          · exact Or.inl h'
          · exact Or.inr (List.mem_cons.mpr (Or.inr h'))

theorem mem_busDelN (l : List (String × Nat)) (e : String)
    (kv : String × Nat) (h : kv ∈ busDelN l e) : kv ∈ l := by
  induction l with
  | nil => simp [busDelN] at h
  | cons kw rest ih =>
      obtain ⟨k, w⟩ := kw
      by_cases hk : k = e
      · simp only [busDelN, if_pos hk] at h
        exact List.mem_cons.mpr (Or.inr h)
      · simp only [busDelN, if_neg hk, List.mem_cons] at h
        rcases h with h | h
        · exact List.mem_cons.mpr (Or.inl h)
        · exact List.mem_cons.mpr (Or.inr (ih h))

theorem keys_busSetN (l : List (String × Nat)) (e : String) (a : Nat) :
    (busSetN l e a).map Prod.fst
      = if e ∈ l.map Prod.fst then l.map Prod.fst else l.map Prod.fst ++ [e] := by
  induction l with
  | nil => simp [busSetN]
  | cons kv rest ih =>
      obtain ⟨k, w⟩ := kv
      by_cases hk : k = e
      · simp [busSetN, hk]
      · have hek : ¬ e = k := fun h => hk h.symm
        by_cases hmem : e ∈ rest.map Prod.fst
        · simp [busSetN, hk, hek, hmem, ih]
        · simp [busSetN, hk, hek, hmem, ih]

theorem nodup_keys_busSetN (l : List (String × Nat)) (e : String) (a : Nat)
    (hnd : (l.map Prod.fst).Nodup) : ((busSetN l e a).map Prod.fst).Nodup := by
  rw [keys_busSetN]
  by_cases hmem : e ∈ l.map Prod.fst
  · simpa [hmem] using hnd
  · rw [if_neg hmem]
    rw [List.nodup_append]
    exact ⟨hnd, List.nodup_singleton e, by simpa using hmem⟩

theorem nodup_keys_busDelN (l : List (String × Nat)) (e : String)
    (hnd : (l.map Prod.fst).Nodup) : ((busDelN l e).map Prod.fst).Nodup := by
  induction l with
  | nil => simp [busDelN]
  | cons kv rest ih =>
      obtain ⟨k, w⟩ := kv
      simp only [List.map_cons, List.nodup_cons] at hnd
      by_cases hk : k = e
      · simpa [busDelN, hk] using hnd.2
      · simp only [busDelN, if_neg hk, List.map_cons, List.nodup_cons]
        refine ⟨fun hmem => hnd.1 ?_, ih hnd.2⟩
        rcases List.mem_map.mp hmem with ⟨kv', hkv', hfst⟩
        exact hfst ▸ List.mem_map_of_mem Prod.fst (mem_busDelN rest e kv' hkv')

theorem heapGet_append (hp tl : List (List Subscription)) (addr : Nat)
    (ha : addr < hp.length) : heapGet (hp ++ tl) addr = heapGet hp addr := by
  unfold heapGet
  rw [List.getD_append _ _ _ _ ha]

theorem heapGet_append_self (hp : List (List Subscription)) (arr : List Subscription) :
    heapGet (hp ++ [arr]) hp.length = arr := by
  unfold heapGet
  induction hp with
  | nil => rfl
  | cons x xs ih =>
      simp only [List.cons_append, List.length_cons, List.getD_cons_succ]
      exact ih

theorem busGetN_mem (l : List (String × Nat)) (e : String) (a : Nat)
    (h : busGetN l e = some a) : (e, a) ∈ l := by
  induction l with
  | nil => simp [busGetN] at h
  | cons kv rest ih =>
      obtain ⟨k, w⟩ := kv
      by_cases hk : k = e
      · subst hk
        rw [busGetN, if_pos rfl] at h
        rw [Option.some_inj] at h
        subst h
        exact List.mem_cons_self _ _
      · simp only [busGetN, if_neg hk] at h
        exact List.mem_cons.mpr (Or.inr (ih h))

theorem hOff_heap_len (b : HBus) (e : String) (h : Nat) :
    b.heap.length ≤ (hOff b e h).heap.length := by
  rw [hOff]
  by_cases he : e = "*"
  · simp [he]
  · rw [if_neg he]
    cases busGetN b.listeners e with
    | none => exact le_refl _
    | some addr =>
        simp only
        by_cases hemp : ((heapGet b.heap addr).filter (fun s => decide (s.handler ≠ h))).isEmpty
        · rw [if_pos hemp]
        · rw [if_neg hemp]
          simp

theorem hOff_heap_stable (b : HBus) (e : String) (h : Nat) (addr : Nat)
    (ha : addr < b.heap.length) : heapGet (hOff b e h).heap addr = heapGet b.heap addr := by
  rw [hOff]
  by_cases he : e = "*"
  · rw [if_pos he]
    exact heapGet_append _ _ _ ha
  · rw [if_neg he]
    cases busGetN b.listeners e with
    | none => rfl
    | some addr' =>
        simp only
        by_cases hemp : ((heapGet b.heap addr').filter (fun s => decide (s.handler ≠ h))).isEmpty
        · rw [if_pos hemp]
        · rw [if_neg hemp]
          exact heapGet_append _ _ _ ha

theorem hOff_wildcard_eq (b : HBus) (e : String) (h : Nat) (he : e ≠ "*") :
    (hOff b e h).wildcard = b.wildcard := by
  rw [hOff, if_neg he]
  cases busGetN b.listeners e with
  | none => rfl
  | some addr =>
      simp only
      by_cases hemp : ((heapGet b.heap addr).filter (fun s => decide (s.handler ≠ h))).isEmpty
      · rw [if_pos hemp]
      · rw [if_neg hemp]

theorem hOff_listeners_eq_of_wild (b : HBus) (h : Nat) :
    (hOff b "*" h).listeners = b.listeners := by
  rw [hOff, if_pos rfl]

theorem hOff_wf (b : HBus) (e : String) (h : Nat) (hwf : HWF b) : HWF (hOff b e h) := by
  rw [hOff]
  by_cases he : e = "*"
  · rw [if_pos he]
    refine ⟨by simp, ?_, hwf.2.2⟩
    intro kv hkv
    simpa using lt_of_lt_of_le (hwf.2.1 kv hkv) (by simp)
  · rw [if_neg he]
    cases hget : busGetN b.listeners e with
    | none => exact hwf
    | some addr =>
        simp only
        by_cases hemp : ((heapGet b.heap addr).filter (fun s => decide (s.handler ≠ h))).isEmpty
        · rw [if_pos hemp]
          exact ⟨hwf.1, fun kv hkv => hwf.2.1 kv (mem_busDelN _ _ kv hkv),
            nodup_keys_busDelN _ _ hwf.2.2⟩
        · rw [if_neg hemp]
          refine ⟨by simpa using lt_of_lt_of_le hwf.1 (by simp), ?_,
            nodup_keys_busSetN _ _ _ hwf.2.2⟩
          intro kv hkv
          rcases mem_busSetN _ _ _ kv hkv with h' | h'
          · simp [h']
          · simpa using lt_of_lt_of_le (hwf.2.1 kv h') (by simp)

theorem mem_filter_ne (l : List Subscription) (h : Nat) (s : Subscription)
    (hs : s ∈ l.filter (fun s => decide (s.handler ≠ h))) : s.handler ≠ h := by
  have := (List.mem_filter.mp hs).2
  simpa using this

theorem hOff_establishes_freeOn (b : HBus) (e : String) (h : Nat)
    (hwf : HWF b) (he : e ≠ "*") : hFreeOn (hOff b e h) e h := by
  intro s hs
  rw [hOff, if_neg he] at hs
  cases hget : busGetN b.listeners e with
  | none =>
      rw [hget] at hs
      simp only [hListAt, hget] at hs
      simp at hs
  | some addr =>
      rw [hget] at hs
      simp only at hs
      by_cases hemp : ((heapGet b.heap addr).filter (fun s => decide (s.handler ≠ h))).isEmpty
      · rw [if_pos hemp] at hs
        simp only [hListAt, busGetN_busDelN_self _ _ hwf.2.2] at hs
        simp at hs
      · rw [if_neg hemp] at hs
        simp only [hListAt, busGetN_busSetN_self] at hs
        rw [heapGet_append_self] at hs
        exact mem_filter_ne _ _ s hs

theorem hOff_establishes_freeWild (b : HBus) (h : Nat) :
    hFreeWild (hOff b "*" h) h := by
  intro s hs
  rw [hOff, if_pos rfl] at hs
  simp only at hs
  rw [heapGet_append_self] at hs
  exact mem_filter_ne _ _ s hs

theorem hListAt_hOff (b : HBus) (e e' : String) (h : Nat) (hwf : HWF b) :
    hListAt (hOff b e' h) e = hListAt b e
      ∨ hListAt (hOff b e' h) e
          = (hListAt b e).filter (fun s => decide (s.handler ≠ h)) := by
  by_cases he' : e' = "*"
  · subst he'
    left
    rw [hListAt, hOff_listeners_eq_of_wild]
    cases hget : busGetN b.listeners e with
    | none => simp [hListAt, hget]
    | some addr =>
        simp only
        rw [hOff, if_pos rfl]
        simp only
        rw [heapGet_append _ _ _ (hwf.2.1 (e, addr) (by
          exact busGetN_mem b.listeners e addr hget))]
        simp [hListAt, hget]
  · by_cases hee : e = e'
    · subst hee
      rw [hOff, if_neg he']
      cases hget : busGetN b.listeners e with
      | none => left; rfl
      | some addr =>
          simp only
          by_cases hemp : ((heapGet b.heap addr).filter (fun s => decide (s.handler ≠ h))).isEmpty
          · right
            rw [if_pos hemp]
            rw [List.isEmpty_iff] at hemp
            simp only [hListAt, busGetN_busDelN_self _ _ hwf.2.2, hget]
            exact hemp.symm
          · right
            rw [if_neg hemp]
            simp only [hListAt, busGetN_busSetN_self, hget]
            rw [heapGet_append_self]
    · left
      rw [hOff, if_neg he']
      cases hget : busGetN b.listeners e' with
      | none => rfl
      | some addr' =>
          simp only
          by_cases hemp : ((heapGet b.heap addr').filter (fun s => decide (s.handler ≠ h))).isEmpty
          · rw [if_pos hemp]
            simp only [hListAt, busGetN_busDelN_ne _ _ _ hee]
          · rw [if_neg hemp]
            simp only [hListAt, busGetN_busSetN_ne _ _ _ _ hee]
            cases hget2 : busGetN b.listeners e with
            | none => rfl
            | some addr2 =>
                exact heapGet_append _ _ _ (hwf.2.1 (e, addr2)
                  (busGetN_mem b.listeners e addr2 hget2))

theorem hOff_preserves_freeOn (b : HBus) (e e' : String) (h h' : Nat)
    (hwf : HWF b) (hfree : hFreeOn b e h) : hFreeOn (hOff b e' h') e h := by
  rcases hListAt_hOff b e e' h' hwf with heq | heq
  · intro s hs
    exact hfree s (heq ▸ hs)
  · intro s hs
    rw [heq] at hs
    exact hfree s (List.mem_filter.mp hs).1

theorem hOff_preserves_freeWild (b : HBus) (e' : String) (h h' : Nat)
    (hwf : HWF b) (hfree : hFreeWild b h) : hFreeWild (hOff b e' h') h := by
  by_cases he' : e' = "*"
  · subst he'
    intro s hs
    rw [hOff, if_pos rfl] at hs
    simp only at hs
    rw [heapGet_append_self] at hs
    exact hfree s (List.mem_filter.mp hs).1
  · intro s hs
    rw [hOff_wildcard_eq b e' h' he'] at hs
    rw [hOff_heap_stable b e' h' b.wildcard hwf.1] at hs
    exact hfree s hs

theorem actsOff_foldl (acts : List HAction) (b : HBus)
    (hacts : ∀ act ∈ acts, ∃ e h, act = HAction.actOff e h) :
    (∀ addr < b.heap.length,
       heapGet (acts.foldl applyAction b).heap addr = heapGet b.heap addr)
    ∧ b.heap.length ≤ (acts.foldl applyAction b).heap.length
    ∧ (HWF b → HWF (acts.foldl applyAction b))
    ∧ (∀ e h, HWF b → hFreeOn b e h → hFreeOn (acts.foldl applyAction b) e h)
    ∧ (∀ h, HWF b → hFreeWild b h → hFreeWild (acts.foldl applyAction b) h) := by
  induction acts generalizing b with
  | nil => exact ⟨fun _ _ => rfl, le_refl _, id, fun _ _ _ hf => hf, fun _ _ hf => hf⟩
  | cons act rest ih =>
      obtain ⟨e1, h1, heq⟩ := hacts act (List.mem_cons_self _ _)
      subst heq
      simp only [List.foldl_cons, applyAction]
      have hrest := ih (hOff b e1 h1)
        (fun a ha => hacts a (List.mem_cons.mpr (Or.inr ha)))
      refine ⟨?_, ?_, ?_, ?_, ?_⟩
      · intro addr ha
        rw [hrest.1 addr (lt_of_lt_of_le ha (hOff_heap_len b e1 h1))]
        exact hOff_heap_stable b e1 h1 addr ha
      · exact le_trans (hOff_heap_len b e1 h1) hrest.2.1
      · exact fun hwf => hrest.2.2.1 (hOff_wf b e1 h1 hwf)
      · intro e h hwf hfree
        exact hrest.2.2.2.1 e h (hOff_wf b e1 h1 hwf)
          (hOff_preserves_freeOn b e e1 h h1 hwf hfree)
      · intro h hwf hfree
        exact hrest.2.2.2.2 h (hOff_wf b e1 h1 hwf)
          (hOff_preserves_freeWild b e1 h h1 hwf hfree)

theorem actsOffNW_foldl_wildcard (acts : List HAction) (b : HBus)
    (hacts : ∀ act ∈ acts, ∃ e h, act = HAction.actOff e h ∧ e ≠ "*") :
    (acts.foldl applyAction b).wildcard = b.wildcard := by
  induction acts generalizing b with
  | nil => rfl
  | cons act rest ih =>
      obtain ⟨e1, h1, heq, hne⟩ := hacts act (List.mem_cons_self _ _)
      subst heq
      simp only [List.foldl_cons, applyAction]
      rw [ih (hOff b e1 h1) (fun a ha => hacts a (List.mem_cons.mpr (Or.inr ha)))]
      exact hOff_wildcard_eq b e1 h1 hne

/-- The central copy-on-write fact about a dispatch pass: when every registry
operation the handlers perform during the pass is an unsubscription, the
pass invokes exactly the subscriptions of the array it captured, in order —
the `filter`-based `off` allocates a fresh array and never mutates the
captured one — and the unsubscriptions are visible afterwards (freeness is
preserved into the final state). -/
theorem hPassLoop_offOnly (beh : HBeh) (addr : Nat) (args : List JsValue)
    (hbeh : OffOnly beh) :
    ∀ fuel i b, addr < b.heap.length → (heapGet b.heap addr).length ≤ fuel + i →
    (hPassLoop beh addr args fuel i b).trace
        = ((heapGet b.heap addr).drop i).map (fun s => Invocation.mk s.handler args)
    ∧ (∀ a, a < b.heap.length →
         heapGet (hPassLoop beh addr args fuel i b).bus.heap a = heapGet b.heap a)
    ∧ b.heap.length ≤ (hPassLoop beh addr args fuel i b).bus.heap.length
    ∧ (HWF b → HWF (hPassLoop beh addr args fuel i b).bus)
    ∧ (∀ e h, HWF b → hFreeOn b e h → hFreeOn (hPassLoop beh addr args fuel i b).bus e h)
    ∧ (∀ h, HWF b → hFreeWild b h → hFreeWild (hPassLoop beh addr args fuel i b).bus h) := by
  intro fuel
  induction fuel with
  | zero =>
      intro i b ha hlen
      rw [hPassLoop]
      rw [List.drop_eq_nil_of_le (by omega)]
      exact ⟨rfl, fun _ _ => rfl, le_refl _, id, fun _ _ _ hf => hf, fun _ _ hf => hf⟩
  | succ fuel ih =>
      intro i b ha hlen
      rw [hPassLoop]
      by_cases hi : i < (heapGet b.heap addr).length
      · simp only [if_pos hi]
        set arr := heapGet b.heap addr with harr
        set sub := arr.getD i ⟨0, 0, false⟩ with hsub
        set b1 := (beh sub.handler args).1.foldl applyAction b with hb1
        have hacts := actsOff_foldl (beh sub.handler args).1 b (hbeh sub.handler args)
        have hstable : heapGet b1.heap addr = arr := hacts.1 addr ha
        have hlen1 : addr < b1.heap.length := lt_of_lt_of_le ha hacts.2.1
        have hfuel1 : (heapGet b1.heap addr).length ≤ fuel + (i + 1) := by
          rw [hstable]; omega
        have hrest := ih (i + 1) b1 hlen1 hfuel1
        refine ⟨?_, ?_, ?_, ?_, ?_, ?_⟩
        · rw [List.drop_eq_getElem_cons hi, List.map_cons]
          rw [hrest.1, hstable]
          rw [hsub, List.getD_eq_getElem arr ⟨0, 0, false⟩ hi]
        · intro a ha2
          rw [hrest.2.1 a (lt_of_lt_of_le ha2 hacts.2.1)]
          exact hacts.1 a ha2
        · exact le_trans hacts.2.1 hrest.2.2.1
        · exact fun hwf => hrest.2.2.2.1 (hacts.2.2.1 hwf)
        · intro e h hwf hfree
          exact hrest.2.2.2.2.1 e h (hacts.2.2.1 hwf)
            (hacts.2.2.2.1 e h hwf hfree)
        · intro h hwf hfree
          exact hrest.2.2.2.2.2 h (hacts.2.2.1 hwf)
            (hacts.2.2.2.2 h hwf hfree)
      · simp only [if_neg hi]
        rw [List.drop_eq_nil_of_le (by omega)]
        exact ⟨by simp, fun _ _ => by simp, le_refl _, id, fun _ _ _ hf => hf, fun _ _ hf => hf⟩

theorem hPassLoop_offOnlyNW_wildcard (beh : HBeh) (addr : Nat) (args : List JsValue)
    (hbeh : OffOnlyNW beh) :
    ∀ fuel i b, (hPassLoop beh addr args fuel i b).bus.wildcard = b.wildcard := by
  intro fuel
  induction fuel with
  | zero => intro i b; rfl
  | succ fuel ih =>
      intro i b
      rw [hPassLoop]
      by_cases hi : i < (heapGet b.heap addr).length
      · simp only [if_pos hi]
        set sub := (heapGet b.heap addr).getD i ⟨0, 0, false⟩ with hsub
        rw [ih (i + 1) ((beh sub.handler args).1.foldl applyAction b)]
        exact actsOffNW_foldl_wildcard _ b
          (fun a ha => hbeh sub.handler args a ha)
      · simp only [if_neg hi]

theorem hOff_foldl_props (e : String) (hs : List Nat) (b : HBus) :
    (∀ addr < b.heap.length,
       heapGet ((hs.foldl (fun bb h => hOff bb e h) b)).heap addr = heapGet b.heap addr)
    ∧ b.heap.length ≤ (hs.foldl (fun bb h => hOff bb e h) b).heap.length
    ∧ (HWF b → HWF (hs.foldl (fun bb h => hOff bb e h) b))
    ∧ (∀ e' h, HWF b → hFreeOn b e' h → hFreeOn (hs.foldl (fun bb h => hOff bb e h) b) e' h)
    ∧ (∀ h, HWF b → hFreeWild b h → hFreeWild (hs.foldl (fun bb h => hOff bb e h) b) h)
    ∧ (e ≠ "*" → (hs.foldl (fun bb h => hOff bb e h) b).wildcard = b.wildcard) := by
  induction hs generalizing b with
  | nil =>
      exact ⟨fun _ _ => rfl, le_refl _, id, fun _ _ _ hf => hf, fun _ _ hf => hf, fun _ => rfl⟩
  | cons h1 rest ih =>
      simp only [List.foldl_cons]
      have hrest := ih (hOff b e h1)
      refine ⟨?_, ?_, ?_, ?_, ?_, ?_⟩
      · intro addr ha
        rw [hrest.1 addr (lt_of_lt_of_le ha (hOff_heap_len b e h1))]
        exact hOff_heap_stable b e h1 addr ha
      · exact le_trans (hOff_heap_len b e h1) hrest.2.1
      · exact fun hwf => hrest.2.2.1 (hOff_wf b e h1 hwf)
      · intro e' h hwf hfree
        exact hrest.2.2.2.1 e' h (hOff_wf b e h1 hwf)
          (hOff_preserves_freeOn b e' e h h1 hwf hfree)
      · intro h hwf hfree
        exact hrest.2.2.2.2.1 h (hOff_wf b e h1 hwf)
          (hOff_preserves_freeWild b e h h1 hwf hfree)
      · intro hne
        rw [hrest.2.2.2.2.2 hne]
        exact hOff_wildcard_eq b e h1 hne

theorem actsOff_foldl_establishes (acts : List HAction) (b : HBus) (e : String) (h : Nat)
    (hacts : ∀ act ∈ acts, ∃ e1 h1, act = HAction.actOff e1 h1)
    (hwf : HWF b) (hmem : HAction.actOff e h ∈ acts) (he : e ≠ "*") :
    hFreeOn (acts.foldl applyAction b) e h := by
  induction acts generalizing b with
  | nil => simp at hmem
  | cons act rest ih =>
      obtain ⟨e1, h1, heq⟩ := hacts act (List.mem_cons_self _ _)
      subst heq
      simp only [List.foldl_cons, applyAction]
      rcases List.mem_cons.mp hmem with hmem | hmem
      · have heq1 : e1 = e ∧ h1 = h := by
          have := hmem.symm
          injection this with he1 hh1
          exact ⟨he1, hh1⟩
        rw [heq1.1, heq1.2]
        exact (actsOff_foldl rest (hOff b e h)
            (fun a ha => hacts a (List.mem_cons.mpr (Or.inr ha)))).2.2.2.1 e h
          (hOff_wf b e h hwf) (hOff_establishes_freeOn b e h hwf he)
      · exact ih (hOff b e1 h1)
          (fun a ha => hacts a (List.mem_cons.mpr (Or.inr ha)))
          (hOff_wf b e1 h1 hwf) hmem

theorem hPassLoop_establishes (beh : HBeh) (addr : Nat) (args : List JsValue)
    (e : String) (h : Nat) (hbeh : OffOnly beh) (he : e ≠ "*") :
    ∀ fuel i b, addr < b.heap.length → HWF b →
    (∃ j, i ≤ j ∧ ∃ hj : j < (heapGet b.heap addr).length,
        HAction.actOff e h
          ∈ (beh ((heapGet b.heap addr).get ⟨j, hj⟩).handler args).1) →
    (heapGet b.heap addr).length ≤ fuel + i →
    hFreeOn (hPassLoop beh addr args fuel i b).bus e h := by
  intro fuel
  induction fuel with
  | zero =>
      intro i b ha hwf hj hlen
      obtain ⟨j, hij, hjlt, _⟩ := hj
      omega
  | succ fuel ih =>
      intro i b ha hwf hj hlen
      obtain ⟨j, hij, hjlt, hact⟩ := hj
      rw [hPassLoop]
      have hi : i < (heapGet b.heap addr).length := lt_of_le_of_lt hij hjlt
      simp only [if_pos hi]
      set arr := heapGet b.heap addr with harr
      set sub := arr.getD i ⟨0, 0, false⟩ with hsub
      set b1 := (beh sub.handler args).1.foldl applyAction b with hb1
      have hacts := actsOff_foldl (beh sub.handler args).1 b (hbeh sub.handler args)
      have hstable : heapGet b1.heap addr = arr := hacts.1 addr ha
      have hlen1 : addr < b1.heap.length := lt_of_lt_of_le ha hacts.2.1
      have hwf1 : HWF b1 := hacts.2.2.1 hwf
      by_cases hji : j = i
      · have hfree1 : hFreeOn b1 e h := by
          refine actsOff_foldl_establishes _ b e h (hbeh sub.handler args) hwf ?_ he
          have : sub = arr.get ⟨j, hjlt⟩ := by
            subst hji
            rw [hsub, List.getD_eq_getElem arr ⟨0, 0, false⟩ hi]
            simp
          rwa [this]
        exact (hPassLoop_offOnly beh addr args hbeh fuel (i + 1) b1 hlen1
          (by rw [hstable]; omega)).2.2.2.2.1 e h hwf1 hfree1
      · refine ih (i + 1) b1 hlen1 hwf1 ?_ (by rw [hstable]; omega)
        refine ⟨j, by omega, ?_⟩
        rw [hstable]
        exact ⟨hjlt, hact⟩

/-! ## Pure-model key and freeness lemmas -/

theorem keys_busSet (l : List (String × List Subscription)) (e : String)
    (v : List Subscription) :
    (busSet l e v).map Prod.fst
      = if e ∈ l.map Prod.fst then l.map Prod.fst else l.map Prod.fst ++ [e] := by
  induction l with
  | nil => simp [busSet]
  | cons kv rest ih =>
      obtain ⟨k, w⟩ := kv
      by_cases hk : k = e
      · simp [busSet, hk]
      · have hek : ¬ e = k := fun h => hk h.symm
        by_cases hmem : e ∈ rest.map Prod.fst
        · simp [busSet, hk, hek, hmem, ih]
        · simp [busSet, hk, hek, hmem, ih]

theorem nodup_keys_busSet (l : List (String × List Subscription)) (e : String)
    (v : List Subscription) (hnd : (l.map Prod.fst).Nodup) :
    ((busSet l e v).map Prod.fst).Nodup := by
  rw [keys_busSet]
  by_cases hmem : e ∈ l.map Prod.fst
  · simpa [hmem] using hnd
  · rw [if_neg hmem]
    rw [List.nodup_append]
    exact ⟨hnd, List.nodup_singleton e, by simpa using hmem⟩

theorem nodup_keys_busDel (l : List (String × List Subscription)) (e : String)
    (hnd : (l.map Prod.fst).Nodup) : ((busDel l e).map Prod.fst).Nodup := by
  induction l with
  | nil => simp [busDel]
  | cons kv rest ih =>
      obtain ⟨k, w⟩ := kv
      simp only [List.map_cons, List.nodup_cons] at hnd
      by_cases hk : k = e
      · simpa [busDel, hk] using hnd.2
      · simp only [busDel, if_neg hk, List.map_cons, List.nodup_cons]
        refine ⟨fun hmem => hnd.1 ?_, ih hnd.2⟩
        rcases List.mem_map.mp hmem with ⟨kv1, hkv1, hfst⟩
        exact hfst ▸ List.mem_map_of_mem Prod.fst (mem_busDel rest e kv1 hkv1)

theorem nodup_keys_on (bus : Bus) (e : String) (h : Nat) (p : Int)
    (hnd : (bus.listeners.map Prod.fst).Nodup) :
    ((«on» bus e h p).listeners.map Prod.fst).Nodup := by
  rw [«on»]
  by_cases he : e = "*"
  · simpa [he] using hnd
  · simpa [he] using nodup_keys_busSet bus.listeners e _ hnd

theorem nodup_keys_once (bus : Bus) (e : String) (h : Nat) (p : Int)
    (hnd : (bus.listeners.map Prod.fst).Nodup) :
    ((once bus e h p).listeners.map Prod.fst).Nodup := by
  rw [once]
  by_cases he : e = "*"
  · simpa [he] using hnd
  · simpa [he] using nodup_keys_busSet bus.listeners e _ hnd

theorem nodup_keys_off (bus : Bus) (e : String) (h : Nat)
    (hnd : (bus.listeners.map Prod.fst).Nodup) :
    ((off bus e h).listeners.map Prod.fst).Nodup := by
  rw [off]
  by_cases he : e = "*"
  · simpa [he] using hnd
  · rw [if_neg he]
    cases busGet bus.listeners e with
    | none => exact hnd
    | some subs =>
        simp only
        by_cases hemp : (subs.filter (fun s => decide (s.handler ≠ h))).isEmpty
        · rw [if_pos hemp]
          exact nodup_keys_busDel bus.listeners e hnd
        · rw [if_neg hemp]
          exact nodup_keys_busSet bus.listeners e _ hnd

theorem off_freeOn_self (bus : Bus) (e : String) (h : Nat)
    (hnd : (bus.listeners.map Prod.fst).Nodup) (he : e ≠ "*") :
    freeOn (off bus e h) e h := by
  intro s hs
  rw [off, if_neg he] at hs
  cases hget : busGet bus.listeners e with
  | none =>
      rw [hget] at hs
      simp only [hget] at hs
      simp at hs
  | some subs =>
      rw [hget] at hs
      simp only at hs
      by_cases hemp : (subs.filter (fun s => decide (s.handler ≠ h))).isEmpty
      · rw [if_pos hemp] at hs
        simp only [busGet_busDel_self bus.listeners e hnd] at hs
        simp at hs
      · rw [if_neg hemp] at hs
        simp only [busGet_busSet_self] at hs
        exact mem_filter_ne _ _ s hs

theorem off_preserves_freeOn (bus : Bus) (e e' : String) (h h' : Nat)
    (hnd : (bus.listeners.map Prod.fst).Nodup)
    (hf : freeOn bus e h) : freeOn (off bus e' h') e h := by
  intro s hs
  rw [off] at hs
  by_cases he' : e' = "*"
  · rw [if_pos he'] at hs
    exact hf s hs
  · rw [if_neg he'] at hs
    cases hget : busGet bus.listeners e' with
    | none =>
        rw [hget] at hs
        exact hf s hs
    | some subs =>
        rw [hget] at hs
        simp only at hs
        by_cases hemp : (subs.filter (fun s => decide (s.handler ≠ h'))).isEmpty
        · rw [if_pos hemp] at hs
          by_cases hee : e = e'
          · subst hee
            simp only [busGet_busDel_self bus.listeners e hnd] at hs
            simp at hs
          · simp only [busGet_busDel_ne bus.listeners e' e hee] at hs
            exact hf s hs
        · rw [if_neg hemp] at hs
          by_cases hee : e = e'
          · subst hee
            simp only [busGet_busSet_self] at hs
            have hsub : s ∈ subs := (List.mem_filter.mp hs).1
            refine hf s ?_
            simp [hget, hsub]
          · simp only [busGet_busSet_ne bus.listeners e' e _ hee] at hs
            exact hf s hs

theorem off_preserves_freeWild (bus : Bus) (e' : String) (h h' : Nat)
    (hf : freeWild bus h) : freeWild (off bus e' h') h := by
  intro s hs
  by_cases he' : e' = "*"
  · subst he'
    rw [off, if_pos rfl] at hs
    exact hf s (List.mem_filter.mp hs).1
  · rw [off_wildcard_eq bus e' h' he'] at hs
    exact hf s hs

theorem foldl_off_pure_props (e : String) (hs : List Nat) (bus : Bus)
    (hnd : (bus.listeners.map Prod.fst).Nodup) :
    (((hs.foldl (fun b h => off b e h) bus).listeners.map Prod.fst).Nodup)
    ∧ (∀ e1 h1, freeOn bus e1 h1 → freeOn (hs.foldl (fun b h => off b e h) bus) e1 h1)
    ∧ (∀ h1, freeWild bus h1 → freeWild (hs.foldl (fun b h => off b e h) bus) h1)
    ∧ (∀ h1, e ≠ "*" → h1 ∈ hs → freeOn (hs.foldl (fun b h => off b e h) bus) e h1) := by
  induction hs generalizing bus with
  | nil =>
      refine ⟨hnd, fun _ _ hf => hf, fun _ hf => hf, ?_⟩
      intro h1 _ hmem
      simp at hmem
  | cons h0 rest ih =>
      simp only [List.foldl_cons]
      have hnd0 : ((off bus e h0).listeners.map Prod.fst).Nodup := nodup_keys_off bus e h0 hnd
      have hrest := ih (off bus e h0) hnd0
      refine ⟨hrest.1, ?_, ?_, ?_⟩
      · intro e1 h1 hf
        exact hrest.2.1 e1 h1 (off_preserves_freeOn bus e1 e h1 h0 hnd hf)
      · intro h1 hf
        exact hrest.2.2.1 h1 (off_preserves_freeWild bus e h1 h0 hf)
      · intro h1 hne hmem
        rcases List.mem_cons.mp hmem with hmem | hmem
        · subst hmem
          exact hrest.2.1 e h1 (off_freeOn_self bus e h1 hnd hne)
        · exact hrest.2.2.2 h1 hne hmem

/-! ## Emission helper equations (pure model) -/

theorem emit_trace_eq (beh : HandlerBeh) (bus : Bus) (e : String) (args : List JsValue)
    (hstar : e = "*" → NoStar bus) :
    (emit beh bus e args).trace
      = ((busGet bus.listeners e).getD []).map (fun s => Invocation.mk s.handler args)
        ++ bus.wildcardListeners.map
            (fun s => Invocation.mk s.handler (JsValue.vstr e :: args)) := by
  by_cases he : e = "*"
  · subst he
    have h0 : busGet bus.listeners "*" = none := hstar rfl
    simp [emit, h0]
  · simp only [emit]
    rw [foldl_off_wildcard_eq e _ bus he]

theorem emit_error_eq (beh : HandlerBeh) (bus : Bus) (e : String) (args : List JsValue)
    (hstar : e = "*" → NoStar bus) :
    (emit beh bus e args).error
      = (if ((((busGet bus.listeners e).getD []).filterMap
              (fun s => beh s.handler args)).map normalizeThrown
            ++ (bus.wildcardListeners.filterMap
                (fun s => beh s.handler (JsValue.vstr e :: args))).map normalizeThrown).isEmpty
         then none
         else some (AggregateErr.mk
            ((((busGet bus.listeners e).getD []).filterMap
                (fun s => beh s.handler args)).map normalizeThrown
              ++ (bus.wildcardListeners.filterMap
                  (fun s => beh s.handler (JsValue.vstr e :: args))).map normalizeThrown)
            (toString ((((busGet bus.listeners e).getD []).filterMap
                  (fun s => beh s.handler args)).map normalizeThrown
                ++ (bus.wildcardListeners.filterMap
                    (fun s => beh s.handler (JsValue.vstr e :: args))).map normalizeThrown).length
              ++ " handler(s) threw during \"" ++ e ++ "\""))) := by
  by_cases he : e = "*"
  · subst he
    have h0 : busGet bus.listeners "*" = none := hstar rfl
    simp [emit, h0]
  · simp only [emit]
    rw [foldl_off_wildcard_eq e _ bus he]

theorem emit_bus_eq (beh : HandlerBeh) (bus : Bus) (e : String) (args : List JsValue) :
    (emit beh bus e args).bus
      = List.foldl (fun b h => off b "*" h)
          (List.foldl (fun b h => off b e h) bus
            ((((busGet bus.listeners e).getD []).filter (fun s => s.once)).map
              (fun s => s.handler)))
          (((List.foldl (fun b h => off b e h) bus
              ((((busGet bus.listeners e).getD []).filter (fun s => s.once)).map
                (fun s => s.handler))).wildcardListeners.filter (fun s => s.once)).map
            (fun s => s.handler)) := by
  simp only [emit]

theorem emit_no_invoke (beh : HandlerBeh) (bus : Bus) (e : String) (args : List JsValue)
    (h : Nat) (he : e ≠ "*") (hf : freeOn bus e h) (hw : freeWild bus h) :
    ∀ iv ∈ (emit beh bus e args).trace, iv.handler ≠ h := by
  intro iv hiv
  rw [emit_trace_eq beh bus e args (fun hc => absurd hc he)] at hiv
  rcases List.mem_append.mp hiv with h1 | h1
  · rcases List.mem_map.mp h1 with ⟨s, hsmem, hseq⟩
    rw [← hseq]
    exact hf s hsmem
  · rcases List.mem_map.mp h1 with ⟨s, hsmem, hseq⟩
    rw [← hseq]
    exact hw s hsmem

theorem emit_freeOn_preserved (beh : HandlerBeh) (bus : Bus) (e : String)
    (args : List JsValue) (e1 : String) (h1 : Nat)
    (hnd : (bus.listeners.map Prod.fst).Nodup)
    (hf : freeOn bus e1 h1) : freeOn (emit beh bus e args).bus e1 h1 := by
  rw [emit_bus_eq beh bus e args]
  have h2 := foldl_off_pure_props e
    ((((busGet bus.listeners e).getD []).filter (fun s => s.once)).map (fun s => s.handler))
    bus hnd
  exact (foldl_off_pure_props "*" _ _ h2.1).2.1 e1 h1 (h2.2.1 e1 h1 hf)

theorem emit_freeWild_preserved (beh : HandlerBeh) (bus : Bus) (e : String)
    (args : List JsValue) (h1 : Nat)
    (hnd : (bus.listeners.map Prod.fst).Nodup)
    (hf : freeWild bus h1) : freeWild (emit beh bus e args).bus h1 := by
  rw [emit_bus_eq beh bus e args]
  have h2 := foldl_off_pure_props e
    ((((busGet bus.listeners e).getD []).filter (fun s => s.once)).map (fun s => s.handler))
    bus hnd
  exact (foldl_off_pure_props "*" _ _ h2.1).2.2.1 h1 (h2.2.2.1 h1 hf)

theorem emit_freeOn_establish (beh : HandlerBeh) (bus : Bus) (e : String)
    (args : List JsValue) (h : Nat)
    (hnd : (bus.listeners.map Prod.fst).Nodup) (he : e ≠ "*")
    (hmem : ∃ s ∈ (busGet bus.listeners e).getD [], s.handler = h ∧ s.once = true) :
    freeOn (emit beh bus e args).bus e h := by
  rw [emit_bus_eq beh bus e args]
  obtain ⟨s, hsmem, hsh, hso⟩ := hmem
  have h2 := foldl_off_pure_props e
    ((((busGet bus.listeners e).getD []).filter (fun s => s.once)).map (fun s => s.handler))
    bus hnd
  refine (foldl_off_pure_props "*" _ _ h2.1).2.1 e h (h2.2.2.2 h he ?_)
  refine List.mem_map.mpr ⟨s, ?_, hsh⟩
  exact List.mem_filter.mpr ⟨hsmem, by simp [hso]⟩

theorem filter_length_register (subs : List Subscription) (h : Nat) (p : Int) (o : Bool)
    (hfree : ∀ s ∈ subs, s.handler ≠ h) :
    ((sortDesc (subs ++ [Subscription.mk h p o])).filter
        (fun s => decide (s.handler ≠ h))).length = subs.length := by
  rw [← List.countP_eq_length_filter]
  rw [List.Perm.countP_eq _ (sortDesc_perm (subs ++ [Subscription.mk h p o]))]
  rw [List.countP_append]
  have h1 : List.countP (fun s => decide (s.handler ≠ h)) subs = subs.length :=
    List.countP_eq_length.mpr (by intro a ha; simpa using hfree a ha)
  have h2 : List.countP (fun s => decide (s.handler ≠ h))
      [Subscription.mk h p o] = 0 := by simp
  omega

theorem isError_normalizeThrown (v : JsValue) : isError (normalizeThrown v) = true := by
  unfold normalizeThrown
  by_cases hv : isError v = true
  · rw [if_pos hv]
    exact hv
  · rw [if_neg hv]
    rfl

theorem emit_error_mem (beh : HandlerBeh) (bus : Bus) (e : String) (args : List JsValue)
    (err : AggregateErr) (herr : (emit beh bus e args).error = some err) :
    ∀ w ∈ err.errors, ∃ v, w = normalizeThrown v := by
  simp only [emit] at herr
  split at herr
  · exact absurd herr (by simp)
  · rw [Option.some_inj] at herr
    subst herr
    intro w hw
    simp only [AggregateErr.mk] at hw
    rcases List.mem_append.mp hw with h1 | h1
    · rcases List.mem_map.mp h1 with ⟨v, _, hv⟩
      exact ⟨v, hv.symm⟩
    · rcases List.mem_map.mp h1 with ⟨v, _, hv⟩
      exact ⟨v, hv.symm⟩

theorem noStar_runWaitFor (beh : HandlerBeh) (bus : Bus) (e : String) (timeout : Nat)
    (h : Nat) (race : WFRace) (hb : NoStar bus) :
    NoStar (runWaitFor beh bus e timeout h race).bus := by
  rw [runWaitFor.eq_def]
  cases race with
  | eventFirst args =>
      simp only [wfTimerBody]
      have h1 : NoStar (emit beh (once bus e h 0) e args).bus :=
        noStar_emit beh (once bus e h 0) e args (noStar_once bus e h 0 hb)
      simp only [wfHandlerBody, wfSettle]
      exact h1
  | timerFirst =>
      simp only [wfTimerBody]
      simp only [wfSettle]
      exact noStar_off _ _ _ (noStar_once bus e h 0 hb)

/-! ## The claims -/

/-- C4: For every `emit(eventName, ...args)`, every specific-event handler is
invoked (in the stored priority order) with exactly the original arguments,
every wildcard handler is invoked with the event name prepended to the
original arguments, and the whole specific pass precedes the whole wildcard
pass.  (The hypothesis is the reachable-state invariant that the reserved
name `'*'` has no entry in the specific mapping; it only matters when the
emitted name is `'*'` itself.) -/
theorem claim_C4 (beh : HandlerBeh) (bus : Bus) (e : String) (args : List JsValue)
    (hstar : e = "*" → NoStar bus) :
    (emit beh bus e args).trace
      = ((busGet bus.listeners e).getD []).map (fun s => Invocation.mk s.handler args)
        ++ bus.wildcardListeners.map
            (fun s => Invocation.mk s.handler (JsValue.vstr e :: args)) :=
  emit_trace_eq beh bus e args hstar

theorem claim_C4_witness :
    (emit quietBeh busE0 "e" []).trace
      = ((busGet busE0.listeners "e").getD []).map (fun s => Invocation.mk s.handler [])
        ++ busE0.wildcardListeners.map
            (fun s => Invocation.mk s.handler (JsValue.vstr "e" :: [])) :=
  claim_C4 quietBeh busE0 "e" [] (fun hc => absurd hc (by decide))

/-- C5: One `emit` invokes all registered handlers (N failing plus M
succeeding); if no handler fails (including the no-handler case) the call
succeeds with no value, and otherwise it fails with an aggregate carrying
exactly the N captured failures, specific-event failures before wildcard
failures, and message `"{N} handler(s) threw during \"{eventName}\""`. -/
theorem claim_C5 (beh : HandlerBeh) (bus : Bus) (e : String) (args : List JsValue)
    (hstar : e = "*" → NoStar bus) :
    (emit beh bus e args).trace.length
        = ((busGet bus.listeners e).getD []).length + bus.wildcardListeners.length
    ∧ ((((busGet bus.listeners e).getD []).filterMap (fun s => beh s.handler args)).length
          + (bus.wildcardListeners.filterMap
              (fun s => beh s.handler (JsValue.vstr e :: args))).length = 0 →
        (emit beh bus e args).error = none)
    ∧ (0 < (((busGet bus.listeners e).getD []).filterMap
            (fun s => beh s.handler args)).length
          + (bus.wildcardListeners.filterMap
              (fun s => beh s.handler (JsValue.vstr e :: args))).length →
        (emit beh bus e args).error
          = some (AggregateErr.mk
              ((((busGet bus.listeners e).getD []).filterMap
                  (fun s => beh s.handler args)).map normalizeThrown
                ++ (bus.wildcardListeners.filterMap
                    (fun s => beh s.handler (JsValue.vstr e :: args))).map normalizeThrown)
              (toString ((((busGet bus.listeners e).getD []).filterMap
                    (fun s => beh s.handler args)).length
                  + (bus.wildcardListeners.filterMap
                      (fun s => beh s.handler (JsValue.vstr e :: args))).length)
                ++ " handler(s) threw during \"" ++ e ++ "\""))) := by
  refine ⟨?_, ?_, ?_⟩
  · rw [emit_trace_eq beh bus e args hstar]
    simp
  · intro hzero
    rw [emit_error_eq beh bus e args hstar]
    rw [if_pos]
    rw [List.isEmpty_iff]
    have h1 : (((busGet bus.listeners e).getD []).filterMap
        (fun s => beh s.handler args)).length = 0 := by omega
    have h2 : (bus.wildcardListeners.filterMap
        (fun s => beh s.handler (JsValue.vstr e :: args))).length = 0 := by omega
    rw [List.length_eq_zero] at h1 h2
    simp [h1, h2]
  · intro hpos
    rw [emit_error_eq beh bus e args hstar]
    rw [if_neg]
    · have hlen : ((((busGet bus.listeners e).getD []).filterMap
            (fun s => beh s.handler args)).map normalizeThrown
          ++ (bus.wildcardListeners.filterMap
              (fun s => beh s.handler (JsValue.vstr e :: args))).map normalizeThrown).length
        = (((busGet bus.listeners e).getD []).filterMap
              (fun s => beh s.handler args)).length
          + (bus.wildcardListeners.filterMap
              (fun s => beh s.handler (JsValue.vstr e :: args))).length := by
        simp
      rw [hlen]
    · rw [List.isEmpty_iff]
      intro hemp
      have h1 := congrArg List.length hemp
      rw [List.length_append, List.length_map, List.length_map] at h1
      simp only [List.length_nil] at h1
      omega

theorem claim_C5_witness :
    (emit throwStrBeh busE0 "e" []).trace.length
        = ((busGet busE0.listeners "e").getD []).length + busE0.wildcardListeners.length
    ∧ (emit throwStrBeh busE0 "e" []).error
        = some (AggregateErr.mk
            ((((busGet busE0.listeners "e").getD []).filterMap
                (fun s => throwStrBeh s.handler [])).map normalizeThrown
              ++ (busE0.wildcardListeners.filterMap
                  (fun s => throwStrBeh s.handler (JsValue.vstr "e" :: []))).map normalizeThrown)
            (toString ((((busGet busE0.listeners "e").getD []).filterMap
                  (fun s => throwStrBeh s.handler [])).length
                + (busE0.wildcardListeners.filterMap
                    (fun s => throwStrBeh s.handler (JsValue.vstr "e" :: []))).length)
              ++ " handler(s) threw during \"" ++ "e" ++ "\"")) :=
  ⟨(claim_C5 throwStrBeh busE0 "e" [] (fun hc => absurd hc (by decide))).1,
   (claim_C5 throwStrBeh busE0 "e" [] (fun hc => absurd hc (by decide))).2.2 (by decide)⟩

/-- C6: Every operation of the bus (`on`, `once`, `off`, `emit`,
`removeAllListeners`, `waitFor`) preserves the registry invariant that each
stored subscriber sequence — per-event and wildcard — is sorted by
descending priority; the sequences the dispatcher iterates are therefore
sorted; and registration is stable: pushing a new subscription and
re-sorting places it after every existing subscription of
greater-or-equal priority and before every strictly smaller one, keeping
the relative order of equal priorities (insertion order). -/
theorem claim_C6 (bus : Bus) (e : String) (h : Nat) (p : Int) (args : List JsValue)
    (beh : HandlerBeh) (o : Option String) (timeout : Nat) (race : WFRace)
    (hb : BusSorted bus) :
    BusSorted («on» bus e h p) ∧ BusSorted (once bus e h p) ∧ BusSorted (off bus e h)
    ∧ BusSorted (emit beh bus e args).bus ∧ BusSorted (removeAllListeners bus o)
    ∧ BusSorted (runWaitFor beh bus e timeout h race).bus
    ∧ SortedDesc ((busGet bus.listeners e).getD []) ∧ SortedDesc bus.wildcardListeners
    ∧ (∀ l x, SortedDesc l →
        sortDesc (l ++ [x])
          = l.takeWhile (fun y => decide (x.priority ≤ y.priority))
            ++ x :: l.dropWhile (fun y => decide (x.priority ≤ y.priority))) :=
  ⟨busSorted_on bus e h p hb, busSorted_once bus e h p hb, busSorted_off bus e h hb,
   busSorted_emit beh bus e args hb, busSorted_removeAllListeners bus o hb,
   busSorted_runWaitFor beh bus e timeout h race hb,
   sortedDesc_busGet bus.listeners e hb.1, hb.2,
   fun l x hl => sortDesc_register l x hl⟩

theorem claim_C6_witness :
    BusSorted («on» emptyBus "e" 0 0) ∧ BusSorted (once emptyBus "e" 0 0)
    ∧ BusSorted (off emptyBus "e" 0) :=
  ⟨(claim_C6 emptyBus "e" 0 0 [] quietBeh none 5 WFRace.timerFirst
      ⟨by simp [emptyBus], List.Pairwise.nil⟩).1,
   (claim_C6 emptyBus "e" 0 0 [] quietBeh none 5 WFRace.timerFirst
      ⟨by simp [emptyBus], List.Pairwise.nil⟩).2.1,
   (claim_C6 emptyBus "e" 0 0 [] quietBeh none 5 WFRace.timerFirst
      ⟨by simp [emptyBus], List.Pairwise.nil⟩).2.2.1⟩

/-- C9: Every handler failure recorded during dispatch is Error-shaped: a
thrown value that is already an Error is kept as-is, any other thrown value
is wrapped in an Error whose message is the thrown value's JS
stringification; consequently every element of the aggregate error
collection of an emission is Error-shaped. -/
theorem claim_C9 (v : JsValue) :
    isError (normalizeThrown v) = true
    ∧ (isError v = true → normalizeThrown v = v)
    ∧ (isError v = false → normalizeThrown v = JsValue.verror (jsString v))
    ∧ ∀ (beh : HandlerBeh) (bus : Bus) (e : String) (args : List JsValue)
        (err : AggregateErr),
        (emit beh bus e args).error = some err → ∀ w ∈ err.errors, isError w = true := by
  refine ⟨isError_normalizeThrown v, ?_, ?_, ?_⟩
  · intro hv
    simp [normalizeThrown, hv]
  · intro hv
    simp [normalizeThrown, hv]
  · intro beh bus e args err herr w hw
    obtain ⟨v1, hv1⟩ := emit_error_mem beh bus e args err herr w hw
    rw [hv1]
    exact isError_normalizeThrown v1

theorem claim_C9_witness :
    isError (normalizeThrown (JsValue.vnum 3)) = true
    ∧ normalizeThrown (JsValue.verror "boom") = JsValue.verror "boom"
    ∧ normalizeThrown (JsValue.vstr "oops") = JsValue.verror "oops"
    ∧ (∀ w ∈ [JsValue.verror "boom"], isError w = true) :=
  ⟨(claim_C9 (JsValue.vnum 3)).1,
   (claim_C9 (JsValue.verror "boom")).2.1 (by decide),
   (claim_C9 (JsValue.vstr "oops")).2.2.1 (by decide),
   (claim_C9 (JsValue.vnum 0)).2.2.2 throwStrBeh busE0 "e" []
     (AggregateErr.mk [JsValue.verror "boom"] "1 handler(s) threw during \"e\"")
     (by decide)⟩

/-- C10: The reserved name `'*'` never enters the specific-event mapping
(preserved by every operation from any reachable state), so `emit('*')` has
an empty specific pass and invokes each wildcard subscriber exactly once
with the literal string `'*'` prepended to the arguments, and
`listenerCount('*')` is the length of the wildcard list. -/
theorem claim_C10 (bus : Bus) (e : String) (h : Nat) (p : Int) (args : List JsValue)
    (beh : HandlerBeh) (o : Option String) (timeout : Nat) (race : WFRace)
    (hb : NoStar bus) :
    NoStar («on» bus e h p) ∧ NoStar (once bus e h p) ∧ NoStar (off bus e h)
    ∧ NoStar (emit beh bus e args).bus ∧ NoStar (removeAllListeners bus o)
    ∧ NoStar (runWaitFor beh bus e timeout h race).bus
    ∧ (emit beh bus "*" args).trace
        = bus.wildcardListeners.map
            (fun s => Invocation.mk s.handler (JsValue.vstr "*" :: args))
    ∧ listenerCount bus "*" = bus.wildcardListeners.length := by
  refine ⟨noStar_on bus e h p hb, noStar_once bus e h p hb, noStar_off bus e h hb,
    noStar_emit beh bus e args hb, noStar_removeAllListeners bus o hb,
    noStar_runWaitFor beh bus e timeout h race hb, ?_, by simp [listenerCount]⟩
  have h1 := emit_trace_eq beh bus "*" args (fun _ => hb)
  rw [h1]
  have h0 : busGet bus.listeners "*" = none := hb
  simp [h0]

theorem claim_C10_witness :
    NoStar («on» emptyBus "x" 0 0)
    ∧ (emit quietBeh emptyBus "*" []).trace
        = emptyBus.wildcardListeners.map
            (fun s => Invocation.mk s.handler (JsValue.vstr "*" :: [])) :=
  ⟨(claim_C10 emptyBus "x" 0 0 [] quietBeh none 5 WFRace.timerFirst rfl).1,
   (claim_C10 emptyBus "x" 0 0 [] quietBeh none 5 WFRace.timerFirst rfl).2.2.2.2.2.2.1⟩

/-- C1 counterexample: register handler 0 on `"e"` via `on` and via `once`
(both subscriptions coexist, count 2).  One `emit("e")` invokes the handler
twice — once per subscription, not "exactly once" — and its once-pruning
calls `off("e", 0)`, which removes *every* subscription with that handler
reference, the `on` one included: the count drops to 0 and a second
emission invokes nothing, contradicting the claim that only the
once-marked subscription is removed and the `on` subscription keeps firing. -/
theorem claim_C1_counterexample :
    listenerCount busOnOnce "e" = 2
    ∧ (emit quietBeh busOnOnce "e" []).trace = [Invocation.mk 0 [], Invocation.mk 0 []]
    ∧ ¬ (emit quietBeh busOnOnce "e" []).trace = [Invocation.mk 0 []]
    ∧ listenerCount (emit quietBeh busOnOnce "e" []).bus "e" = 0
    ∧ (emit quietBeh (emit quietBeh busOnOnce "e" []).bus "e" []).trace = [] := by
  decide

/-- C1 (amended): when a handler reference `h` is registered on event `e`
both via `on` and via `once`, both subscriptions coexist until the first
emission of `e` (count 2) and that emission invokes `h` once per
subscription (twice); the once-pruning then unregisters by handler
reference, which removes **both** subscriptions, so `h` is not registered
after the first emission and is not invoked by any subsequent emission. -/
theorem claim_C1 (e : String) (h : Nat) (p q : Int) (beh : HandlerBeh)
    (args args2 : List JsValue) (he : e ≠ "*") :
    listenerCount (once («on» emptyBus e h p) e h q) e = 2
    ∧ (emit beh (once («on» emptyBus e h p) e h q) e args).trace
        = [Invocation.mk h args, Invocation.mk h args]
    ∧ listenerCount (emit beh (once («on» emptyBus e h p) e h q) e args).bus e = 0
    ∧ (emit beh (emit beh (once («on» emptyBus e h p) e h q) e args).bus e args2).trace
        = [] := by
  have hON : «on» emptyBus e h p = Bus.mk [(e, [Subscription.mk h p false])] [] := by
    simp [«on», emptyBus, he, busSet, busGet, sortDesc, insertSub]
  by_cases hpq : q > p
  · have hONCE : once («on» emptyBus e h p) e h q
        = Bus.mk [(e, [Subscription.mk h q true, Subscription.mk h p false])] [] := by
      rw [hON]
      simp [once, he, busGet, busSet, sortDesc, insertSub, hpq]
    rw [hONCE]
    have hBUS : (emit beh (Bus.mk
          [(e, [Subscription.mk h q true, Subscription.mk h p false])] []) e args).bus
        = Bus.mk [] [] := by
      rw [emit_bus_eq]
      simp [off, he, busGet, busSet, busDel]
    refine ⟨by simp [listenerCount, he, busGet], ?_, ?_, ?_⟩
    · rw [emit_trace_eq _ _ _ _ (fun hc => absurd hc he)]
      simp [busGet]
    · rw [hBUS]
      simp [listenerCount, he, busGet]
    · rw [hBUS]
      rw [emit_trace_eq _ _ _ _ (fun hc => absurd hc he)]
      simp [busGet]
  · have hONCE : once («on» emptyBus e h p) e h q
        = Bus.mk [(e, [Subscription.mk h p false, Subscription.mk h q true])] [] := by
      rw [hON]
      simp [once, he, busGet, busSet, sortDesc, insertSub, hpq]
    rw [hONCE]
    have hBUS : (emit beh (Bus.mk
          [(e, [Subscription.mk h p false, Subscription.mk h q true])] []) e args).bus
        = Bus.mk [] [] := by
      rw [emit_bus_eq]
      simp [off, he, busGet, busSet, busDel]
    refine ⟨by simp [listenerCount, he, busGet], ?_, ?_, ?_⟩
    · rw [emit_trace_eq _ _ _ _ (fun hc => absurd hc he)]
      simp [busGet]
    · rw [hBUS]
      simp [listenerCount, he, busGet]
    · rw [hBUS]
      rw [emit_trace_eq _ _ _ _ (fun hc => absurd hc he)]
      simp [busGet]

theorem claim_C1_witness :
    listenerCount (once («on» emptyBus "e" 7 0) "e" 7 0) "e" = 2
    ∧ (emit quietBeh (once («on» emptyBus "e" 7 0) "e" 7 0) "e" []).trace
        = [Invocation.mk 7 [], Invocation.mk 7 []] :=
  ⟨(claim_C1 "e" 7 0 0 quietBeh [] [] (by decide)).1,
   (claim_C1 "e" 7 0 0 quietBeh [] [] (by decide)).2.1⟩

/-- C8 counterexample: when the handler reference is already registered on
the event, the round-trip fails: `busE0` has handler 0 registered once on
`"e"` (count 1); registering handler 0 again and then unregistering it
removes *both* entries (`off` filters by handler reference), leaving count
0, not the pre-registration count 1. -/
theorem claim_C8_counterexample :
    listenerCount busE0 "e" = 1
    ∧ listenerCount (off («on» busE0 "e" 0 0) "e" 0) "e" = 0
    ∧ ¬ listenerCount (off («on» busE0 "e" 0 0) "e" 0) "e" = listenerCount busE0 "e" := by
  decide

/-- C8 (amended): the round-trip `count(e)` after `register(e, h)` followed
by the matching `unregister(e, h)` returns to its pre-registration value
provided the handler reference `h` is not already registered on `e`
(and registry keys are unique, as in a JS `Map`); this holds for both `on`
and `once` registrations, and for the wildcard name. -/
theorem claim_C8 (bus : Bus) (e : String) (h : Nat) (p : Int)
    (hnd : (bus.listeners.map Prod.fst).Nodup)
    (hfree : ∀ s ∈ (if e = "*" then bus.wildcardListeners
        else (busGet bus.listeners e).getD []), s.handler ≠ h) :
    listenerCount (off («on» bus e h p) e h) e = listenerCount bus e
    ∧ listenerCount (off (once bus e h p) e h) e = listenerCount bus e := by
  by_cases he : e = "*"
  · subst he
    rw [if_pos rfl] at hfree
    constructor
    · rw [«on», if_pos rfl, off, if_pos rfl]
      simp only [listenerCount, if_pos rfl]
      exact filter_length_register bus.wildcardListeners h p false hfree
    · rw [once, if_pos rfl, off, if_pos rfl]
      simp only [listenerCount, if_pos rfl]
      exact filter_length_register bus.wildcardListeners h p true hfree
  · rw [if_neg he] at hfree
    have main : ∀ o : Bool,
        listenerCount (off (Bus.mk (busSet bus.listeners e
            (sortDesc ((busGet bus.listeners e).getD [] ++ [Subscription.mk h p o])))
            bus.wildcardListeners) e h) e = listenerCount bus e := by
      intro o
      rw [off, if_neg he]
      simp only [busGet_busSet_self]
      set L := sortDesc ((busGet bus.listeners e).getD [] ++ [Subscription.mk h p o]) with hL
      have hflen : (L.filter (fun s => decide (s.handler ≠ h))).length
          = ((busGet bus.listeners e).getD []).length :=
        filter_length_register _ h p o hfree
      by_cases hemp : (L.filter (fun s => decide (s.handler ≠ h))).isEmpty
      · rw [if_pos hemp]
        rw [List.isEmpty_iff] at hemp
        rw [hemp] at hflen
        simp only [List.length_nil] at hflen
        simp only [listenerCount, if_neg he]
        rw [busGet_busDel_self _ _ (nodup_keys_busSet bus.listeners e L hnd)]
        simp [hflen.symm]
      · rw [if_neg hemp]
        simp only [listenerCount, if_neg he]
        rw [busGet_busSet_self]
        simpa using hflen
    constructor
    · rw [«on», if_neg he]
      exact main false
    · rw [once, if_neg he]
      exact main true

theorem claim_C8_witness :
    listenerCount (off («on» busE0 "e" 1 0) "e" 1) "e" = listenerCount busE0 "e"
    ∧ listenerCount (off (once busE0 "e" 1 0) "e" 1) "e" = listenerCount busE0 "e" :=
  ⟨(claim_C8 busE0 "e" 1 0 (by decide) (by decide)).1,
   (claim_C8 busE0 "e" 1 0 (by decide) (by decide)).2⟩

/-- C2 counterexample: the registry is **not** copy-on-write for
registration.  `on` pushes into, and sorts in place, the very array object
the in-flight `for...of` pass of `emit` is iterating.  Concretely: handler 0
is the only subscription of `"e"` when the emission starts (captured
sequence `[{0}]`), handler 0 registers handler 1 on `"e"` while the pass is
running, and handler 1 is invoked *by that same pass* — contradicting "the
new subscription affects only future emissions and is never invoked by the
pass currently iterating; the sequence the dispatcher is iterating is not
observed to change". -/
theorem claim_C2_counterexample :
    hListAt hBusE0 "e" = [Subscription.mk 0 0 false]
    ∧ (hEmit (registerBeh "e" 0 1 0) 4 hBusE0 "e" []).trace
        = [Invocation.mk 0 [], Invocation.mk 1 []]
    ∧ Invocation.mk 1 [] ∈ (hEmit (registerBeh "e" 0 1 0) 4 hBusE0 "e" []).trace := by
  decide

/-- C2 (amended): a subscription registered by a handler while an emission
of the same event is in flight is pushed (with an in-place stable sort)
into the very array the dispatcher is iterating, so the iterated sequence
*is* observed to change, and the new subscription *is* invoked by the pass
currently iterating whenever its sorted position lies after the current
index — e.g. at equal priority: the captured sequence held only `h0`, yet
the pass invokes `h0` and then the newly registered `h1`. -/
theorem claim_C2 (e : String) (h0 h1 : Nat) (p : Int) (args : List JsValue)
    (he : e ≠ "*") (hne : h1 ≠ h0) :
    hListAt (hOn emptyHBus e h0 p) e = [Subscription.mk h0 p false]
    ∧ (hEmit (registerBeh e h0 h1 p) 4 (hOn emptyHBus e h0 p) e args).trace
        = [Invocation.mk h0 args, Invocation.mk h1 args] := by
  have hON : hOn emptyHBus e h0 p
      = HBus.mk [[], [Subscription.mk h0 p false]] [(e, 1)] 0 := by
    simp [hOn, emptyHBus, he, busGetN, sortDesc, insertSub]
  constructor
  · rw [hON]
    simp [hListAt, busGetN, heapGet]
  · rw [hON]
    simp [hEmit, hPassLoop, registerBeh, hOn, applyAction, heapGet, busGetN,
      sortDesc, insertSub, he, hne, lt_irrefl]

theorem claim_C2_witness :
    hListAt (hOn emptyHBus "ev" 5 3) "ev" = [Subscription.mk 5 3 false]
    ∧ (hEmit (registerBeh "ev" 5 6 3) 4 (hOn emptyHBus "ev" 5 3) "ev" []).trace
        = [Invocation.mk 5 [], Invocation.mk 6 []] :=
  ⟨(claim_C2 "ev" 5 6 3 [] (by decide) (by decide)).1,
   (claim_C2 "ev" 5 6 3 [] (by decide) (by decide)).2⟩

/-- C3: unsubscription never affects the emission in progress, because
`off` replaces the stored array with a freshly `filter`-allocated one and
never mutates the captured array.  When the handlers running during an
emission perform only unsubscriptions (of specific events): (i) the
emission invokes exactly the subscriptions of the sequences captured at the
start of each pass — every specific subscription with the original
arguments, in order, then every wildcard subscription with the event name
prepended — including any subscription that was unsubscribed mid-pass; and
(ii) if some invoked handler unsubscribed `h` from `e` during the pass,
`h` is absent from the stored registry for `e` afterwards, i.e. removed
from all future emissions. -/
theorem claim_C3 (beh : HBeh) (b : HBus) (e : String) (args : List JsValue)
    (fuel : Nat) (h : Nat)
    (hbeh : OffOnlyNW beh) (hwf : HWF b) (he : e ≠ "*")
    (hfuel1 : (hListAt b e).length ≤ fuel)
    (hfuel2 : (heapGet b.heap b.wildcard).length ≤ fuel) :
    (hEmit beh fuel b e args).trace
      = (hListAt b e).map (fun s => Invocation.mk s.handler args)
        ++ (heapGet b.heap b.wildcard).map
            (fun s => Invocation.mk s.handler (JsValue.vstr e :: args))
    ∧ ((∃ s ∈ hListAt b e, HAction.actOff e h ∈ (beh s.handler args).1) →
        hFreeOn (hEmit beh fuel b e args).bus e h) := by
  have hOffOnly : OffOnly beh := by
    intro h1 a act hact
    obtain ⟨e1, hh1, heq, _⟩ := hbeh h1 a act hact
    exact ⟨e1, hh1, heq⟩
  simp only [hEmit]
  cases hget : busGetN b.listeners e with
  | none =>
      have hlist : hListAt b e = [] := by simp [hListAt, hget]
      simp only [hlist, List.map_nil, List.nil_append]
      have wLem := hPassLoop_offOnly beh b.wildcard (JsValue.vstr e :: args) hOffOnly
        fuel 0 b hwf.1 (by omega)
      constructor
      · simp only [List.foldl_nil]
        rw [wLem.1, List.drop_zero]
      · intro hex
        obtain ⟨s, hs, _⟩ := hex
        simp at hs
  | some addr =>
      have haddr : addr < b.heap.length := hwf.2.1 (e, addr) (busGetN_mem _ _ _ hget)
      have hlist : hListAt b e = heapGet b.heap addr := by simp [hListAt, hget]
      have hf1 : (heapGet b.heap addr).length ≤ fuel + 0 := by
        rw [← hlist]; omega
      have specLem := hPassLoop_offOnly beh addr args hOffOnly fuel 0 b haddr hf1
      set specPass := hPassLoop beh addr args fuel 0 b with hsp
      have sWF : HWF specPass.bus := specLem.2.2.2.1 hwf
      have hwild : specPass.bus.wildcard = b.wildcard :=
        hPassLoop_offOnlyNW_wildcard beh addr args hbeh fuel 0 b
      have prune := hOff_foldl_props e specPass.toRemove specPass.bus
      set bus1 := specPass.toRemove.foldl (fun bb hh => hOff bb e hh) specPass.bus with hb1
      have hwild1 : bus1.wildcard = b.wildcard := by
        rw [prune.2.2.2.2.2 he, hwild]
      have hstable1 : heapGet bus1.heap b.wildcard = heapGet b.heap b.wildcard := by
        rw [prune.1 b.wildcard (lt_of_lt_of_le hwf.1 specLem.2.2.1)]
        exact specLem.2.1 b.wildcard hwf.1
      have hWF1 : HWF bus1 := prune.2.2.1 sWF
      have hlen1 : b.heap.length ≤ bus1.heap.length :=
        le_trans specLem.2.2.1 prune.2.1
      have hwlt : bus1.wildcard < bus1.heap.length := by
        rw [hwild1]
        exact lt_of_lt_of_le hwf.1 hlen1
      have hf2 : (heapGet bus1.heap bus1.wildcard).length ≤ fuel + 0 := by
        rw [hwild1, hstable1]
        omega
      have wLem := hPassLoop_offOnly beh bus1.wildcard (JsValue.vstr e :: args) hOffOnly
        fuel 0 bus1 hwlt hf2
      set wPass := hPassLoop beh bus1.wildcard (JsValue.vstr e :: args) fuel 0 bus1 with hwp
      have wWF : HWF wPass.bus := wLem.2.2.2.1 hWF1
      constructor
      · rw [specLem.1, List.drop_zero, wLem.1, List.drop_zero, hwild1, hstable1, hlist]
      · intro hex
        obtain ⟨s, hsmem, hact⟩ := hex
        rw [hlist] at hsmem
        obtain ⟨⟨j, hj⟩, hsg⟩ := List.mem_iff_get.mp hsmem
        have hEst : hFreeOn specPass.bus e h := by
          refine hPassLoop_establishes beh addr args e h hOffOnly he fuel 0 b haddr hwf
            ⟨j, Nat.zero_le j, hj, ?_⟩ hf1
          rw [hsg]
          exact hact
        have hFree1 : hFreeOn bus1 e h := prune.2.2.2.1 e h sWF hEst
        have hFreeW : hFreeOn wPass.bus e h := wLem.2.2.2.2.1 e h hWF1 hFree1
        exact (hOff_foldl_props "*" wPass.toRemove wPass.bus).2.2.2.1 e h wWF hFreeW

theorem claim_C3_witness :
    (hEmit offDuringEmitBeh 4 hBusE01 "e" []).trace
      = (hListAt hBusE01 "e").map (fun s => Invocation.mk s.handler [])
        ++ (heapGet hBusE01.heap hBusE01.wildcard).map
            (fun s => Invocation.mk s.handler (JsValue.vstr "e" :: []))
    ∧ hFreeOn (hEmit offDuringEmitBeh 4 hBusE01 "e" []).bus "e" 1 :=
  ⟨(claim_C3 offDuringEmitBeh hBusE01 "e" [] 4 1
      (by
        intro h a act hact
        by_cases h0 : h = 0
        · subst h0
          simp only [offDuringEmitBeh, if_pos rfl] at hact
          rcases List.mem_singleton.mp hact with heq
          exact ⟨"e", 1, heq, by decide⟩
        · simp [offDuringEmitBeh, h0] at hact)
      (by unfold HWF; decide) (by decide) (by decide) (by decide)).1,
   (claim_C3 offDuringEmitBeh hBusE01 "e" [] 4 1
      (by
        intro h a act hact
        by_cases h0 : h = 0
        · subst h0
          simp only [offDuringEmitBeh, if_pos rfl] at hact
          rcases List.mem_singleton.mp hact with heq
          exact ⟨"e", 1, heq, by decide⟩
        · simp [offDuringEmitBeh, h0] at hact)
      (by unfold HWF; decide) (by decide) (by decide) (by decide)).2 (by decide)⟩

/-- C7: `waitFor(e, T)` registers a fresh one-shot handler and races it
against the timer; exactly one of the two outcomes occurs.  If `emit(e, a)`
happens first, the one-shot handler is invoked with exactly `a`, the
returned future resolves with exactly `a`, the timer is cancelled (and its
later firing is a no-op — the resolution stands), and the subscription is
auto-pruned.  If the timer elapses first, the subscription is unregistered
(idempotently) and the future fails with the message
`waitFor("{e}") timed out after {T}ms`; afterwards no emission of `e` ever
invokes the handler, so the event path is fully neutralized. -/
theorem claim_C7 (beh : HandlerBeh) (bus : Bus) (e : String) (timeout h : Nat)
    (args : List JsValue)
    (he : e ≠ "*")
    (hnd : (bus.listeners.map Prod.fst).Nodup)
    (hfW : freeWild bus h) :
    (runWaitFor beh bus e timeout h (WFRace.eventFirst args)).settled
        = some (WFOutcome.resolved args)
    ∧ (runWaitFor beh bus e timeout h (WFRace.eventFirst args)).timerActive = false
    ∧ Invocation.mk h args ∈ (emit beh (once bus e h 0) e args).trace
    ∧ freeOn (runWaitFor beh bus e timeout h (WFRace.eventFirst args)).bus e h
    ∧ (runWaitFor beh bus e timeout h WFRace.timerFirst).settled
        = some (WFOutcome.rejected
            ("waitFor(\"" ++ e ++ "\") timed out after " ++ toString timeout ++ "ms"))
    ∧ freeOn (runWaitFor beh bus e timeout h WFRace.timerFirst).bus e h
    ∧ (∀ beh2 args2, ∀ iv ∈ (emit beh2 (runWaitFor beh bus e timeout h
          WFRace.timerFirst).bus e args2).trace, iv.handler ≠ h) := by
  have hbus0 : busGet (once bus e h 0).listeners e
      = some (sortDesc ((busGet bus.listeners e).getD []
          ++ [Subscription.mk h 0 true])) := by
    rw [once, if_neg he]
    exact busGet_busSet_self _ _ _
  have hnd0 : ((once bus e h 0).listeners.map Prod.fst).Nodup :=
    nodup_keys_once bus e h 0 hnd
  have hw0 : (once bus e h 0).wildcardListeners = bus.wildcardListeners := by
    rw [once, if_neg he]
  have hmem0 : Subscription.mk h 0 true
      ∈ sortDesc ((busGet bus.listeners e).getD [] ++ [Subscription.mk h 0 true]) :=
    (sortDesc_perm _).mem_iff.mpr (List.mem_append.mpr (Or.inr (List.mem_singleton.mpr rfl)))
  refine ⟨?_, ?_, ?_, ?_, ?_, ?_, ?_⟩
  · simp [runWaitFor, wfHandlerBody, wfSettle, wfTimerBody]
  · simp [runWaitFor, wfHandlerBody, wfSettle, wfTimerBody]
  · rw [emit_trace_eq _ _ _ _ (fun hc => absurd hc he)]
    refine List.mem_append.mpr (Or.inl ?_)
    refine List.mem_map.mpr ⟨Subscription.mk h 0 true, ?_, rfl⟩
    rw [hbus0]
    simpa using hmem0
  · have hfin : freeOn (emit beh (once bus e h 0) e args).bus e h := by
      refine emit_freeOn_establish beh (once bus e h 0) e args h hnd0 he ?_
      refine ⟨Subscription.mk h 0 true, ?_, rfl, rfl⟩
      rw [hbus0]
      simpa using hmem0
    simpa [runWaitFor, wfHandlerBody, wfSettle, wfTimerBody] using hfin
  · simp [runWaitFor, wfTimerBody, wfSettle]
  · have hfin : freeOn (off (once bus e h 0) e h) e h := off_freeOn_self _ e h hnd0 he
    simpa [runWaitFor, wfTimerBody, wfSettle] using hfin
  · intro beh2 args2 iv hiv
    have hfin : freeOn (off (once bus e h 0) e h) e h := off_freeOn_self _ e h hnd0 he
    have hfw0 : freeWild (once bus e h 0) h := by
      intro s hs
      rw [hw0] at hs
      exact hfW s hs
    have hfwin : freeWild (off (once bus e h 0) e h) h :=
      off_preserves_freeWild _ e h h hfw0
    have hbusT : (runWaitFor beh bus e timeout h WFRace.timerFirst).bus
        = off (once bus e h 0) e h := by
      simp [runWaitFor, wfTimerBody, wfSettle]
    rw [hbusT] at hiv
    exact emit_no_invoke beh2 _ e args2 h he hfin hfwin iv hiv

theorem claim_C7_witness :
    (runWaitFor quietBeh emptyBus "done" 1000 9
        (WFRace.eventFirst [JsValue.vstr "v"])).settled
        = some (WFOutcome.resolved [JsValue.vstr "v"])
    ∧ (runWaitFor quietBeh emptyBus "done" 1000 9 WFRace.timerFirst).settled
        = some (WFOutcome.rejected "waitFor(\"done\") timed out after 1000ms") :=
  ⟨(claim_C7 quietBeh emptyBus "done" 1000 9 [JsValue.vstr "v"] (by decide) (by decide)
      (by intro s hs; simp [emptyBus] at hs)).1,
   (claim_C7 quietBeh emptyBus "done" 1000 9 [JsValue.vstr "v"] (by decide) (by decide)
      (by intro s hs; simp [emptyBus] at hs)).2.2.2.2.1⟩

end EventBus
